import Mathlib

/-!
Red-black tree of `pkg/container/rbtree/rbtree.go`.

A shallow embedding of the tree (`Tree`, `node`, `Add`, `Remove`, `Search`, `Len`, the
insertion and deletion fixups, the rotations and the stack iterator) and the properties
proved about it.

Representation of pointers.  The Go nodes are heap records linked by `l`, `r` and the
parent back-reference `p`.  Here a tree is the inductive type `node` (`node.nil` is the
nil pointer) and a non-nil `*node` inside a tree is a `cursor`: the fields of the node
it points to together with `up`, the list of its ancestors from the parent to the root.
Each ancestor is a `frame`: the ancestor's own fields, the side on which the path
continues below it, and its other child.  So `n.p` is the head of `n.up`, `n == n.p.l`
is `side.left` in that head, and `n.sibling()` is the other child kept in it.  A
dereference of a nil pointer (a Go panic) is the result `none`.

Recursion.  `insertCase1` and `deleteCase1` call themselves through `insertCase3` and
`deleteCase3`; they take a bound `fuel` on the number of passes, and `Add` and `Remove`
start them with the depth of the node plus one.

Iteration.  The tree is not modified while it is iterated, so the node pointers held
by an `Iterator` are represented by the subtrees they point to.  The producer goroutine
of `IterChan` is sequential code; it is represented by the list of the operations it
performs on its channel when every item is received (`stream`), and a consumer by
`stream.range`.  Scheduling and blocking are not modelled.

Case 6 of the deletion fixup.  `deleteCase1K k6` is the deletion fixup with the call of
`deleteCase6` replaced by `k6`; with `k6 := deleteCase6` it is `deleteCase1`, and with a
check in front of `deleteCase6` it tells in which states Case 6 is entered.

Keys are taken from a linear order (the spec's "totally ordered" keys; a floating-point
NaN is outside this model), `count` is an unbounded integer.
-/

namespace rbtree

/-- The type `color` of the source: `black` is the zero value. -/
inductive color where
  | black
  | red
  deriving DecidableEq, Repr

/-- The struct `node` without its parent link; `nil` is the nil pointer. -/
inductive node (K V : Type) where
  | nil : node K V
  | mk (k : K) (v : V) (c : color) (l r : node K V) : node K V
  deriving DecidableEq, Repr

/-- Which child of its parent a node is: `left` when `n == n.p.l`. -/
inductive side where
  | left
  | right
  deriving DecidableEq, Repr

/-- One ancestor on the way up: its key, value and colour, the side `s` on which the
path goes down, and `o`, its child on the other side. -/
structure frame (K V : Type) where
  k : K
  v : V
  c : color
  s : side
  o : node K V
  deriving DecidableEq, Repr

/-- A non-nil `*node`: the fields `k v c l r` of the node and the chain `up` of its
ancestors, parent first (the unfolding of the `p` links). -/
structure cursor (K V : Type) where
  k : K
  v : V
  c : color
  l : node K V
  r : node K V
  up : List (frame K V)
  deriving DecidableEq, Repr

/-- The struct `Tree`. -/
structure Tree (K V : Type) where
  root : node K V
  count : Int
  deriving DecidableEq, Repr

variable {K V : Type}

/-- The function `nodeColor`: nil is black. -/
def nodeColor : node K V → color
  | node.nil => color.black
  | node.mk _ _ c _ _ => c

/-- The assignment `n.c = c` through a pointer that may be nil: `none` is the panic. -/
def setColor (c : color) : node K V → Option (node K V)
  | node.nil => none
  | node.mk k v _ l r => some (node.mk k v c l r)

/-- The subtree a cursor points to. -/
def cursor.here (n : cursor K V) : node K V :=
  node.mk n.k n.v n.c n.l n.r

/-- The node described by a frame, once the subtree `t` hangs on the frame's side. -/
def frame.fill (f : frame K V) (t : node K V) : node K V :=
  match f.s with
  | side.left => node.mk f.k f.v f.c t f.o
  | side.right => node.mk f.k f.v f.c f.o t

/-- The whole tree seen from a hole: the subtree `t` under the ancestors `up`. -/
def plug : node K V → List (frame K V) → node K V
  | t, [] => t
  | t, f :: rest => plug (f.fill t) rest

/-- The root of the tree a cursor lives in (`t.root`, as maintained by `replaceNode`). -/
def cursor.root (n : cursor K V) : node K V :=
  plug n.here n.up

/-- The link `n.p`: `none` is nil. -/
def cursor.p (n : cursor K V) : Option (cursor K V) :=
  match n.up with
  | [] => none
  | f :: rest =>
    match f.s with
    | side.left => some ⟨f.k, f.v, f.c, n.here, f.o, rest⟩
    | side.right => some ⟨f.k, f.v, f.c, f.o, n.here, rest⟩

/-- The pointer `n.l` or `n.r` as a cursor below `n`: `none` is nil. -/
def cursor.down (s : side) (n : cursor K V) : Option (cursor K V) :=
  match s with
  | side.left =>
    match n.l with
    | node.nil => none
    | node.mk k v c l r => some ⟨k, v, c, l, r, ⟨n.k, n.v, n.c, side.left, n.r⟩ :: n.up⟩
  | side.right =>
    match n.r with
    | node.nil => none
    | node.mk k v c l r => some ⟨k, v, c, l, r, ⟨n.k, n.v, n.c, side.right, n.l⟩ :: n.up⟩

/-- The method `grandParent`: `n.p.p`, a panic when `n.p` is nil. -/
def cursor.grandParent (n : cursor K V) : Option (cursor K V) :=
  n.p.bind cursor.p

/-- The function `maxNode`, started at the node `k v c l r` under `up`: follow `r`
while it is not nil. -/
def maxNodeFrom (k : K) (v : V) (c : color) (l : node K V) :
    node K V → List (frame K V) → cursor K V
  | node.nil, up => ⟨k, v, c, l, node.nil, up⟩
  | node.mk k1 v1 c1 l1 r1, up => maxNodeFrom k1 v1 c1 l1 r1 (⟨k, v, c, side.right, l⟩ :: up)

/-- The function `maxNode`. -/
def maxNode (n : cursor K V) : cursor K V :=
  maxNodeFrom n.k n.v n.c n.l n.r n.up

/-- The method `rotateLeft(n)`, returning the cursor of the same node `n` afterwards:
`r := n.r` takes the place of `n` under `n.p` (`replaceNode`), `n.r = r.l`, `r.l = n`,
`n.p = r`.  A nil `n.r` is a panic at `r.l`. -/
def rotateLeft (n : cursor K V) : Option (cursor K V) :=
  match n.r with
  | node.nil => none
  | node.mk rk rv rc rl rr =>
    some ⟨n.k, n.v, n.c, n.l, rl, ⟨rk, rv, rc, side.left, rr⟩ :: n.up⟩

/-- The method `rotateRight(n)`, returning the cursor of the same node `n` afterwards. -/
def rotateRight (n : cursor K V) : Option (cursor K V) :=
  match n.l with
  | node.nil => none
  | node.mk lk lv lc ll lr =>
    some ⟨n.k, n.v, n.c, lr, n.r, ⟨lk, lv, lc, side.right, ll⟩ :: n.up⟩

/-- The method `insertCase5`: `n.p.c = black`, `n.grandParent().c = red`, then the
grandparent is rotated right when `n` and `n.p` are both left children, left otherwise. -/
def insertCase5 (n : cursor K V) : Option (cursor K V) :=
  match n.up with
  | f :: g :: rest =>
    let n1 : cursor K V :=
      { n with up := { f with c := color.black } :: { g with c := color.red } :: rest }
    if f.s = side.left ∧ g.s = side.left then
      n1.grandParent.bind rotateRight
    else
      n1.grandParent.bind rotateLeft
  | _ => none

/-- The method `insertCase4`: an inner grandchild is first rotated outwards
(`rotateLeft(n.p); n = n.l` or `rotateRight(n.p); n = n.r`), then `insertCase5`. -/
def insertCase4 (n : cursor K V) : Option (cursor K V) :=
  match n.up with
  | f :: g :: _ =>
    if f.s = side.right ∧ g.s = side.left then
      -- after rotateLeft(n.p) the old parent hangs left of n, so it is the new n
      ((n.p.bind rotateLeft).bind cursor.p).bind
        (fun n1 => (n1.down side.left).bind insertCase5)
    else if f.s = side.left ∧ g.s = side.right then
      ((n.p.bind rotateRight).bind cursor.p).bind
        (fun n1 => (n1.down side.right).bind insertCase5)
    else
      insertCase5 n
  | _ => none

/-- The method `insertCase3`; `insertCase1` is the recursive call on the grandparent.
The uncle is `n.p.sibling()`, read through `n.p.p`. -/
def insertCase3 (insertCase1 : cursor K V → Option (cursor K V)) (n : cursor K V) :
    Option (cursor K V) :=
  match n.up with
  | f :: g :: rest =>
    if nodeColor g.o = color.red then
      (setColor color.black g.o).bind (fun u =>
        let n1 : cursor K V :=
          { n with up := { f with c := color.black } :: { g with c := color.red, o := u } :: rest }
        n1.grandParent.bind insertCase1)
    else
      insertCase4 n
  | _ => none

/-- The expression `nodeColor(n.p)`: black when `n.p` is nil. -/
def cursor.parentColor (n : cursor K V) : color :=
  match n.up with
  | [] => color.black
  | f :: _ => f.c

/-- The method `insertCase2`: nothing to do under a black parent. -/
def insertCase2 (insertCase1 : cursor K V → Option (cursor K V)) (n : cursor K V) :
    Option (cursor K V) :=
  if n.parentColor = color.black then some n else insertCase3 insertCase1 n

/-- The method `insertCase1`: the root is painted black.  The recursion through
`insertCase3` climbs two levels each time; `fuel` bounds the number of passes. -/
def insertCase1 : Nat → cursor K V → Option (cursor K V)
  | 0, _ => none
  | fuel + 1, n =>
    match n.up with
    | [] => some { n with c := color.black }
    | _ :: _ => insertCase2 (insertCase1 fuel) n

/-- The result of the descent loop of `Add`. -/
inductive descent (K V : Type) where
  | updated (n : cursor K V) : descent K V
  | linked (nn : cursor K V) : descent K V
  deriving DecidableEq, Repr

/-- The descent loop of `Add` from the subtree `t` under `up`.  At a node with the key
the value is overwritten (`updated`); at a nil child (or a nil root) the new red node
`nn` is linked there with `nn.p` the node last visited (`linked`). -/
def addLoop [LinearOrder K] (key : K) (value : V) :
    node K V → List (frame K V) → descent K V
  | node.nil, up => descent.linked ⟨key, value, color.red, node.nil, node.nil, up⟩
  | node.mk k v c l r, up =>
    if key = k then descent.updated ⟨k, value, c, l, r, up⟩
    else if key < k then addLoop key value l (⟨k, v, c, side.left, r⟩ :: up)
    else addLoop key value r (⟨k, v, c, side.right, l⟩ :: up)

/-- The function `New`. -/
def New : Tree K V := ⟨node.nil, 0⟩

/-- The method `Add`.  `none` is a panic of the fixup. -/
def Tree.Add [LinearOrder K] (t : Tree K V) (key : K) (value : V) : Option (Tree K V) :=
  match addLoop key value t.root [] with
  | descent.updated n => some ⟨n.root, t.count⟩
  | descent.linked nn =>
    (insertCase1 (nn.up.length + 1) nn).map (fun n => ⟨n.root, t.count + 1⟩)

/-- The loop of `lookup` from the subtree `t` under `up`: `none` is nil. -/
def lookupFrom [LinearOrder K] (key : K) : node K V → List (frame K V) → Option (cursor K V)
  | node.nil, _ => none
  | node.mk k v c l r, up =>
    if key = k then some ⟨k, v, c, l, r, up⟩
    else if key < k then lookupFrom key l (⟨k, v, c, side.left, r⟩ :: up)
    else lookupFrom key r (⟨k, v, c, side.right, l⟩ :: up)

/-- The method `lookup`. -/
def Tree.lookup [LinearOrder K] (t : Tree K V) (key : K) : Option (cursor K V) :=
  lookupFrom key t.root []

/-- The method `Search`; `default` is the zero value of `V`. -/
def Tree.Search [LinearOrder K] [Inhabited V] (t : Tree K V) (key : K) : V × Bool :=
  match t.lookup key with
  | none => (default, false)
  | some n => (n.v, true)

/-- The method `Len`. -/
def Tree.Len (t : Tree K V) : Int := t.count

/-- The method `sibling` as a subtree: the other child of `n.p`; `none` is the panic
on a nil `n.p`, `some nil` a nil sibling. -/
def cursor.sibling (n : cursor K V) : Option (node K V) :=
  match n.up with
  | [] => none
  | f :: _ => some f.o

/-- The method `deleteCase6`. -/
def deleteCase6 (n : cursor K V) : Option (cursor K V) :=
  match n.up with
  | [] => none
  | f :: rest =>
    match f.o with
    | node.nil => none
    | node.mk sk sv _ sl sr =>
      match f.s with
      | side.left =>
        (setColor color.black sr).bind (fun sr1 =>
          let n1 : cursor K V :=
            { n with up := { f with c := color.black, o := node.mk sk sv f.c sl sr1 } :: rest }
          (n1.p.bind rotateLeft).bind (cursor.down side.left))
      | side.right =>
        (setColor color.black sl).bind (fun sl1 =>
          let n1 : cursor K V :=
            { n with up := { f with c := color.black, o := node.mk sk sv f.c sl1 sr } :: rest }
          (n1.p.bind rotateRight).bind (cursor.down side.right))

/-- The method `deleteCase5`. -/
def deleteCase5 (n : cursor K V) : Option (cursor K V) :=
  match n.up with
  | [] => none
  | f :: rest =>
    if f.s = side.left ∧ nodeColor f.o = color.black then
      match f.o with
      | node.nil => none
      | node.mk sk sv _ sl sr =>
        if nodeColor sl = color.red ∧ nodeColor sr = color.black then
          (setColor color.black sl).bind (fun sl1 =>
            let n1 : cursor K V :=
              { n with up := { f with o := node.mk sk sv color.red sl1 sr } :: rest }
            -- rotateRight(n.sibling()), then back to n through the new sibling and n.p
            (((((n1.p.bind (cursor.down side.right)).bind rotateRight).bind cursor.p).bind
              cursor.p).bind (cursor.down side.left)).bind deleteCase6)
        else deleteCase6 n
    else if f.s = side.right ∧ nodeColor f.o = color.black then
      match f.o with
      | node.nil => none
      | node.mk sk sv _ sl sr =>
        if nodeColor sr = color.red ∧ nodeColor sl = color.black then
          (setColor color.black sr).bind (fun sr1 =>
            let n1 : cursor K V :=
              { n with up := { f with o := node.mk sk sv color.red sl sr1 } :: rest }
            (((((n1.p.bind (cursor.down side.left)).bind rotateLeft).bind cursor.p).bind
              cursor.p).bind (cursor.down side.right)).bind deleteCase6)
        else deleteCase6 n
    else deleteCase6 n

/-- The method `deleteCase4`. -/
def deleteCase4 (n : cursor K V) : Option (cursor K V) :=
  match n.up with
  | [] => none
  | f :: rest =>
    if f.c = color.red ∧ nodeColor f.o = color.black then
      match f.o with
      | node.nil => none
      | node.mk sk sv _ sl sr =>
        if nodeColor sl = color.black ∧ nodeColor sr = color.black then
          some { n with up := { f with c := color.black, o := node.mk sk sv color.red sl sr } :: rest }
        else deleteCase5 n
    else deleteCase5 n

/-- The method `deleteCase3`; `deleteCase1` is the recursive call on `n.p`, after
which `n` is again the child of `n.p` on its side. -/
def deleteCase3 (deleteCase1 : cursor K V → Option (cursor K V)) (n : cursor K V) :
    Option (cursor K V) :=
  match n.up with
  | [] => none
  | f :: rest =>
    if f.c = color.black ∧ nodeColor f.o = color.black then
      match f.o with
      | node.nil => none
      | node.mk sk sv _ sl sr =>
        if nodeColor sl = color.black ∧ nodeColor sr = color.black then
          let n1 : cursor K V :=
            { n with up := { f with o := node.mk sk sv color.red sl sr } :: rest }
          (n1.p.bind deleteCase1).bind (cursor.down f.s)
        else deleteCase4 n
    else deleteCase4 n

/-- The method `deleteCase2`. -/
def deleteCase2 (deleteCase1 : cursor K V → Option (cursor K V)) (n : cursor K V) :
    Option (cursor K V) :=
  match n.up with
  | [] => none
  | f :: rest =>
    if nodeColor f.o = color.red then
      (setColor color.black f.o).bind (fun s1 =>
        let n1 : cursor K V := { n with up := { f with c := color.red, o := s1 } :: rest }
        match f.s with
        | side.left =>
          ((n1.p.bind rotateLeft).bind (cursor.down side.left)).bind (deleteCase3 deleteCase1)
        | side.right =>
          ((n1.p.bind rotateRight).bind (cursor.down side.right)).bind (deleteCase3 deleteCase1))
    else deleteCase3 deleteCase1 n

/-- The method `deleteCase1`, returning the cursor of the same node `n` afterwards.
The recursion through `deleteCase3` climbs to the parent; `fuel` bounds the passes. -/
def deleteCase1 : Nat → cursor K V → Option (cursor K V)
  | 0, _ => none
  | fuel + 1, n =>
    match n.up with
    | [] => some n
    | _ :: _ => deleteCase2 (deleteCase1 fuel) n

/-- The two-children step of `Remove`: `pred := maxNode(n.l)`, the key and value of
`pred` are copied into `n`, and `pred` is the node to unlink. -/
def toPredecessor (n : cursor K V) : cursor K V :=
  match n.l, n.r with
  | node.mk lk lv lc ll lr, node.mk _ _ _ _ _ =>
    let pred := maxNodeFrom lk lv lc ll lr (⟨n.k, n.v, n.c, side.left, n.r⟩ :: n.up)
    maxNodeFrom lk lv lc ll lr (⟨pred.k, pred.v, n.c, side.left, n.r⟩ :: n.up)
  | _, _ => n

/-- The child that takes the place of the unlinked node in `Remove`:
`child := n.l; if n.r != nil { child = n.r }`. -/
def cursor.child (n : cursor K V) : node K V :=
  match n.r with
  | node.nil => n.l
  | node.mk _ _ _ _ _ => n.r

/-- The method `Remove`, with the tree afterwards.  `none` is a panic of the fixup. -/
def Tree.Remove [LinearOrder K] (t : Tree K V) (key : K) : Option (Tree K V × Bool) :=
  match t.lookup key with
  | none => some (t, false)
  | some n0 =>
    let n := toPredecessor n0
    let child := n.child
    let fixed :=
      if n.c = color.black then
        deleteCase1 (n.up.length + 1) { n with c := nodeColor child }
      else some n
    fixed.map (fun n1 =>
      -- replaceNode(n, child), then the new root is painted black
      let child1 := match n1.up with
        | [] => (setColor color.black child).getD child
        | _ :: _ => child
      (⟨plug child1 n1.up, t.count - 1⟩, true))


/-- The in-order (left, node, right) sequence of the entries of a tree. -/
def toList : node K V → List (K × V)
  | node.nil => []
  | node.mk k v _ l r => toList l ++ (k, v) :: toList r

/-- The in-order key sequence. -/
def keys (t : node K V) : List K := (toList t).map Prod.fst

/-- The number of nodes reachable from a root. -/
def size : node K V → Nat
  | node.nil => 0
  | node.mk _ _ _ l r => size l + size r + 1

/-- The contribution of a node of colour `c` to a black count. -/
def blackUnit : color → Nat
  | color.black => 1
  | color.red => 0

/-- The number of black nodes on each path from the root to a nil leaf. -/
def blackCounts : node K V → List Nat
  | node.nil => [0]
  | node.mk _ _ c l r => (blackCounts l ++ blackCounts r).map (fun a => a + blackUnit c)

/-- The root is black (nil counts as black, so the empty tree qualifies). -/
def rootBlack (t : node K V) : Prop := nodeColor t = color.black

/-- No red node has a red child. -/
def noRedRed : node K V → Prop
  | node.nil => True
  | node.mk _ _ c l r =>
    (c = color.red → nodeColor l = color.black ∧ nodeColor r = color.black) ∧
      noRedRed l ∧ noRedRed r

/-- Every root-to-nil path has the same number of black nodes. -/
def equalBlack (t : node K V) : Prop :=
  ∀ a ∈ blackCounts t, ∀ b ∈ blackCounts t, a = b

/-- The three colour invariants of a red-black tree. -/
def redBlack (t : node K V) : Prop := rootBlack t ∧ noRedRed t ∧ equalBlack t

/-- The in-order key sequence is strictly increasing. -/
def ordered [LinearOrder K] (t : node K V) : Prop := (keys t).Sorted (fun a b => a < b)

instance (t : node K V) : Decidable (rootBlack t) := by unfold rootBlack; infer_instance

instance decNoRedRed : (t : node K V) → Decidable (noRedRed t)
  | node.nil => isTrue trivial
  | node.mk _ _ c l r =>
    have := decNoRedRed l
    have := decNoRedRed r
    by unfold noRedRed; infer_instance

instance (t : node K V) : Decidable (equalBlack t) := by unfold equalBlack; infer_instance

instance (t : node K V) : Decidable (redBlack t) := by unfold redBlack; infer_instance

instance [LinearOrder K] (t : node K V) : Decidable (ordered t) := by unfold ordered List.Sorted; infer_instance

/-- The black count along the leftmost path. -/
def bheight : node K V → Nat
  | node.nil => 0
  | node.mk _ _ c l _ => bheight l + blackUnit c

/-- Both subtrees of every node have the same leftmost black count. -/
def balanced : node K V → Prop
  | node.nil => True
  | node.mk _ _ _ l r => bheight l = bheight r ∧ balanced l ∧ balanced r

/-- The entries to the left of the hole of a path, in order. -/
def pathL : List (frame K V) → List (K × V)
  | [] => []
  | f :: rest =>
    match f.s with
    | side.left => pathL rest
    | side.right => pathL rest ++ (toList f.o ++ [(f.k, f.v)])

/-- The entries to the right of the hole of a path, in order. -/
def pathR : List (frame K V) → List (K × V)
  | [] => []
  | f :: rest =>
    match f.s with
    | side.left => ((f.k, f.v) :: toList f.o) ++ pathR rest
    | side.right => pathR rest

/-- The colour of the node just above the hole of a path (black at the root). -/
def topColor : List (frame K V) → color
  | [] => color.black
  | f :: _ => f.c

/-- A path is balanced for a hole of leftmost black count `h`. -/
def pathBal : List (frame K V) → Nat → Prop
  | [], _ => True
  | f :: rest, h => bheight f.o = h ∧ balanced f.o ∧ pathBal rest (h + blackUnit f.c)

/-- No two reds in a row along a path and inside the subtrees hanging off it. -/
def pathRR : List (frame K V) → Prop
  | [] => True
  | f :: rest =>
    noRedRed f.o ∧
      (f.c = color.red → nodeColor f.o = color.black ∧ topColor rest = color.black) ∧
      pathRR rest

/-- The last frame of a path, the root, is black. -/
def pathRootBlack : List (frame K V) → Prop
  | [] => True
  | [f] => f.c = color.black
  | _ :: g :: rest => pathRootBlack (g :: rest)

/-- The sorted-list counterpart of `Add`: replace the value of `key`, or insert the
entry before the first larger key. -/
def insertList [LinearOrder K] (key : K) (value : V) : List (K × V) → List (K × V)
  | [] => [(key, value)]
  | (a, b) :: rest =>
    if key = a then (key, value) :: rest
    else if key < a then (key, value) :: (a, b) :: rest
    else (a, b) :: insertList key value rest

/-- Helper: the colour invariants in their recursive form. -/
def core (t : node K V) : Prop := nodeColor t = color.black ∧ noRedRed t ∧ balanced t

/-- Helper: what the insertion fixup needs of the node it starts at. -/
structure insertReady (n : cursor K V) (h : Nat) : Prop where
  red : n.c = color.red
  lblack : nodeColor n.l = color.black
  rblack : nodeColor n.r = color.black
  lnrr : noRedRed n.l
  rnrr : noRedRed n.r
  lbal : balanced n.l
  rbal : balanced n.r
  lh : bheight n.l = h
  rh : bheight n.r = h
  pbal : pathBal n.up h
  prr : pathRR n.up
  proot : pathRootBlack n.up

/-- Helper: the path `up1` is what the deletion fixup makes of `up0`: it takes a subtree
of black count `h` under a black parent, with the same entries on both sides. -/
def fixedPath (up0 up1 : List (frame K V)) (h : Nat) : Prop :=
  pathBal up1 h ∧ pathRR up1 ∧ pathRootBlack up1 ∧ topColor up1 = color.black ∧
    pathL up1 = pathL up0 ∧ pathR up1 = pathR up0

/-- The keys of a list of entries are strictly increasing. -/
def sortedKeys [LinearOrder K] (L : List (K × V)) : Prop :=
  (L.map Prod.fst).Sorted (fun a b => a < b)

/-- The shape, keys and colours of a tree, without the values. -/
def skeleton : node K V → node K Unit
  | node.nil => node.nil
  | node.mk k _ c l r => node.mk k () c (skeleton l) (skeleton r)

/-- A sample tree: black 2 with red children 1 and 4. -/
def sample : Tree Nat Nat :=
  ⟨node.mk 2 20 color.black (node.mk 1 10 color.red node.nil node.nil)
    (node.mk 4 40 color.red node.nil node.nil), 3⟩

/-- A call of one of the two mutating methods. -/
inductive op (K V : Type) where
  | add (k : K) (v : V) : op K V
  | remove (k : K) : op K V
  deriving DecidableEq, Repr

/-- The tree after one call; the boolean result of `Remove` is dropped. -/
def Tree.apply [LinearOrder K] (t : Tree K V) : op K V → Option (Tree K V)
  | op.add k v => t.Add k v
  | op.remove k => (t.Remove k).map Prod.fst

/-- The tree after a sequence of calls, first call first. -/
def run [LinearOrder K] : List (op K V) → Tree K V → Option (Tree K V)
  | [], t => some t
  | o :: os, t => (t.apply o).bind (run os)

/-- The effect of one call on a map from keys to values: the reference behaviour. -/
def op.onMap [DecidableEq K] : op K V → (K → Option V) → K → Option V
  | op.add k v, m => fun x => if x = k then some v else m x
  | op.remove k, m => fun x => if x = k then none else m x

/-- The entries that a sequence of calls leaves on top of the map `m`: for each key
the value last added, unless the key was removed afterwards. -/
def liveFrom [DecidableEq K] : List (op K V) → (K → Option V) → K → Option V
  | [], m => m
  | o :: os, m => liveFrom os (o.onMap m)

/-- The entries added and not removed afterwards, starting from nothing. -/
def live [DecidableEq K] (ops : List (op K V)) : K → Option V :=
  liveFrom ops (fun _ => none)

/-- Helper: the invariants of a tree built by `Add` and `Remove`. -/
def valid [LinearOrder K] (t : Tree K V) : Prop :=
  core t.root ∧ ordered t.root ∧ t.count = size t.root

/-- The struct `Iterator`: the root `r` captured by `Iter`, the cursor `c`, the current
node `n` (nil before the first successful `Next`) and the stack `s`, whose top is the
last element.  The tree is not modified while it is iterated, so a node pointer is
represented by the subtree it points to. -/
structure Iterator (K V : Type) where
  r : node K V
  c : node K V
  n : node K V
  s : List (node K V)
  deriving DecidableEq, Repr

/-- The method `Iter`. -/
def Tree.Iter (t : Tree K V) : Iterator K V := ⟨t.root, t.root, node.nil, []⟩

/-- The method `Reset`. -/
def Iterator.Reset (it : Iterator K V) : Iterator K V :=
  { it with c := it.r, n := node.nil, s := [] }

/-- The loop of `Next` from the cursor `c`: a non-nil cursor is pushed and the loop goes
on at its left child; at a nil cursor the top of the stack becomes the current node, the
cursor moves to its right child and the result is true; with an empty stack and a nil
cursor the loop ends and the result is false.  `none` is a nil dereference. -/
def nextLoop (r : node K V) : node K V → node K V → List (node K V) →
    Option (Iterator K V × Bool)
  | node.mk k v col l r1, n, s => nextLoop r l n (s ++ [node.mk k v col l r1])
  | node.nil, n, s =>
    match s.getLast? with
    | none => some (⟨r, node.nil, n, s⟩, false)
    | some node.nil => none
    | some (node.mk k v col l r1) => some (⟨r, r1, node.mk k v col l r1, s.dropLast⟩, true)

/-- The method `Next`, with the iterator afterwards. -/
def Iterator.Next (it : Iterator K V) : Option (Iterator K V × Bool) :=
  match it.r with
  | node.nil => some (it, false)
  | node.mk _ _ _ _ _ => nextLoop it.r it.c it.n it.s

/-- The method `Key`: `none` is the panic without a current element. -/
def Iterator.Key (it : Iterator K V) : Option K :=
  match it.n with
  | node.nil => none
  | node.mk k _ _ _ _ => some k

/-- The method `Value`: `none` is the panic without a current element. -/
def Iterator.Value (it : Iterator K V) : Option V :=
  match it.n with
  | node.nil => none
  | node.mk _ v _ _ _ => some v

/-- The loop `for it.Next() { ... it.Key() ... it.Value() ... }`: the list of the
pairs read until `Next` returns false; `none` if a call panics or if `fuel` calls of
`Next` do not reach the end. -/
def collect : Nat → Iterator K V → Option (List (K × V))
  | 0, _ => none
  | fuel + 1, it =>
    match it.Next with
    | none => none
    | some (_, false) => some []
    | some (it1, true) =>
      match it1.Key, it1.Value, collect fuel it1 with
      | some k, some v, some rest => some ((k, v) :: rest)
      | _, _, _ => none

/-- Helper: what a stacked node still has to yield: itself, then its right subtree. -/
def nodeRest : node K V → List (K × V)
  | node.nil => []
  | node.mk k v _ _ r => (k, v) :: toList r

/-- Helper: what a stack still has to yield, top (last element) first. -/
def stackRest : List (node K V) → List (K × V)
  | [] => []
  | x :: rest => stackRest rest ++ nodeRest x

/-- The calls `Remove(k)` for the keys of a list in order: the tree afterwards and the
boolean results. -/
def removeEach [LinearOrder K] : List K → Tree K V → Option (Tree K V × List Bool)
  | [], t => some (t, [])
  | k :: ks, t =>
    (t.Remove k).bind (fun p => (removeEach ks p.1).map (fun q => (q.1, p.2 :: q.2)))

/-- The calls `Add(k, v)` for the entries of a list in order. -/
def addEach (kvs : List (K × V)) : List (op K V) := kvs.map (fun p => op.add p.1 p.2)

/-- The nodes of a tree in left-node-right order, each as the subtree it roots. -/
def nodes : node K V → List (node K V)
  | node.nil => []
  | node.mk k v c l r => nodes l ++ node.mk k v c l r :: nodes r

/-- The iterator after `j` calls of `Next`; `none` is a panic. -/
def advance : Nat → Iterator K V → Option (Iterator K V)
  | 0, it => some it
  | j + 1, it => it.Next.bind (fun p => advance j p.1)

/-- A call that changes an iterator. -/
inductive move where
  | next
  | reset
  deriving DecidableEq, Repr

/-- The iterator after a sequence of `Next` and `Reset` calls, together with the node
made current by the last `Next` that returned true since the iterator was created or
last reset (`none` when there was no such call). -/
def execFrom : List move → Iterator K V → Option (node K V) →
    Option (Iterator K V × Option (node K V))
  | [], it, g => some (it, g)
  | move.reset :: ms, it, _ => execFrom ms it.Reset none
  | move.next :: ms, it, g =>
    match it.Next with
    | none => none
    | some (it1, true) => execFrom ms it1 (some it1.n)
    | some (it1, false) => execFrom ms it1 g

/-- Helper: the nodes a stacked node still has to yield. -/
def nodeRestN : node K V → List (node K V)
  | node.nil => []
  | node.mk k v c l r => node.mk k v c l r :: nodes r

/-- Helper: the nodes a stack still has to yield, top (last element) first. -/
def stackNodes : List (node K V) → List (node K V)
  | [] => []
  | x :: rest => stackNodes rest ++ nodeRestN x

/-- Helper: the nodes an iterator still has to yield. -/
def Iterator.pending (it : Iterator K V) : List (node K V) :=
  nodes it.c ++ stackNodes it.s

/-- Helper: the stack holds no nil, and an iterator on the empty tree has nothing
pending. -/
def iterInv (it : Iterator K V) : Prop :=
  (∀ x ∈ it.s, x ≠ node.nil) ∧ (it.r = node.nil → it.c = node.nil ∧ it.s = [])

/-- What the producer goroutine of `IterChan` does on the channel: `ch <- n` for a
node with key `k` and value `v`, or `close(ch)`. -/
inductive chanEvent (K V : Type) where
  | send (k : K) (v : V) : chanEvent K V
  | close : chanEvent K V
  deriving DecidableEq, Repr

/-- The result of `IterChan`: the nil channel, or a channel together with the
operations its producer performs on it, in order, when every item is received;
`unfinished` stands for a producer that panics or does not reach the end of its loop. -/
inductive stream (K V : Type) where
  | nilChannel : stream K V
  | events (es : List (chanEvent K V)) : stream K V
  | unfinished : stream K V
  deriving DecidableEq, Repr

/-- The loop of the producer in `IterChan` from `curr` and the stack `s` (top last),
then `close(ch)`; `fuel` bounds the number of tests of the loop condition. -/
def produce : Nat → node K V → List (node K V) → Option (List (chanEvent K V))
  | 0, _, _ => none
  | fuel + 1, node.mk k v c l r, s => produce fuel l (s ++ [node.mk k v c l r])
  | fuel + 1, node.nil, s =>
    match s.getLast? with
    | none => some [chanEvent.close]
    | some node.nil => none
    | some (node.mk k v _ _ r) =>
      (produce fuel r s.dropLast).map (fun es => chanEvent.send k v :: es)

/-- The method `IterChan`: nil for an empty tree, otherwise a channel fed by the
producer.  Each node is pushed once and popped once, so the loop condition is tested
`2 * size + 1` times. -/
def Tree.IterChan (t : Tree K V) : stream K V :=
  match t.root with
  | node.nil => stream.nilChannel
  | node.mk _ _ _ _ _ =>
    match produce (2 * size t.root + 1) t.root [] with
    | some es => stream.events es
    | none => stream.unfinished

/-- The items a consumer receives from a list of channel operations until the
channel is closed; `none` when it is never closed, so that the consumer waits forever. -/
def received : List (chanEvent K V) → Option (List (K × V))
  | [] => none
  | chanEvent.close :: _ => some []
  | chanEvent.send k v :: es => (received es).map (fun items => (k, v) :: items)

/-- The loop `for item := range ch`: the items received when the loop finishes,
`none` when it never does.  A receive on the nil channel blocks forever. -/
def stream.range : stream K V → Option (List (K × V))
  | stream.nilChannel => none
  | stream.events es => received es
  | stream.unfinished => none

/-- The operations of a producer that sends the given entries and then closes. -/
def sendAll (L : List (K × V)) : List (chanEvent K V) :=
  L.map (fun p => chanEvent.send p.1 p.2) ++ [chanEvent.close]

/-- The number of nodes on the longest path from the root to a nil leaf. -/
def height : node K V → Nat
  | node.nil => 0
  | node.mk _ _ _ l r => max (height l) (height r) + 1

/-- The method `deleteCase5` with the call of `deleteCase6` replaced by `k6`. -/
def deleteCase5K (k6 : cursor K V → Option (cursor K V)) (n : cursor K V) :
    Option (cursor K V) :=
  match n.up with
  | [] => none
  | f :: rest =>
    if f.s = side.left ∧ nodeColor f.o = color.black then
      match f.o with
      | node.nil => none
      | node.mk sk sv _ sl sr =>
        if nodeColor sl = color.red ∧ nodeColor sr = color.black then
          (setColor color.black sl).bind (fun sl1 =>
            let n1 : cursor K V :=
              { n with up := { f with o := node.mk sk sv color.red sl1 sr } :: rest }
            (((((n1.p.bind (cursor.down side.right)).bind rotateRight).bind cursor.p).bind
              cursor.p).bind (cursor.down side.left)).bind k6)
        else k6 n
    else if f.s = side.right ∧ nodeColor f.o = color.black then
      match f.o with
      | node.nil => none
      | node.mk sk sv _ sl sr =>
        if nodeColor sr = color.red ∧ nodeColor sl = color.black then
          (setColor color.black sr).bind (fun sr1 =>
            let n1 : cursor K V :=
              { n with up := { f with o := node.mk sk sv color.red sl sr1 } :: rest }
            (((((n1.p.bind (cursor.down side.left)).bind rotateLeft).bind cursor.p).bind
              cursor.p).bind (cursor.down side.right)).bind k6)
        else k6 n
    else k6 n

/-- The method `deleteCase4` over `deleteCase5K`. -/
def deleteCase4K (k6 : cursor K V → Option (cursor K V)) (n : cursor K V) :
    Option (cursor K V) :=
  match n.up with
  | [] => none
  | f :: rest =>
    if f.c = color.red ∧ nodeColor f.o = color.black then
      match f.o with
      | node.nil => none
      | node.mk sk sv _ sl sr =>
        if nodeColor sl = color.black ∧ nodeColor sr = color.black then
          some { n with up := { f with c := color.black, o := node.mk sk sv color.red sl sr } :: rest }
        else deleteCase5K k6 n
    else deleteCase5K k6 n

/-- The method `deleteCase3` over `deleteCase4K`. -/
def deleteCase3K (k6 deleteCase1 : cursor K V → Option (cursor K V)) (n : cursor K V) :
    Option (cursor K V) :=
  match n.up with
  | [] => none
  | f :: rest =>
    if f.c = color.black ∧ nodeColor f.o = color.black then
      match f.o with
      | node.nil => none
      | node.mk sk sv _ sl sr =>
        if nodeColor sl = color.black ∧ nodeColor sr = color.black then
          let n1 : cursor K V :=
            { n with up := { f with o := node.mk sk sv color.red sl sr } :: rest }
          (n1.p.bind deleteCase1).bind (cursor.down f.s)
        else deleteCase4K k6 n
    else deleteCase4K k6 n

/-- The method `deleteCase2` over `deleteCase3K`. -/
def deleteCase2K (k6 deleteCase1 : cursor K V → Option (cursor K V)) (n : cursor K V) :
    Option (cursor K V) :=
  match n.up with
  | [] => none
  | f :: rest =>
    if nodeColor f.o = color.red then
      (setColor color.black f.o).bind (fun s1 =>
        let n1 : cursor K V := { n with up := { f with c := color.red, o := s1 } :: rest }
        match f.s with
        | side.left =>
          ((n1.p.bind rotateLeft).bind (cursor.down side.left)).bind
            (deleteCase3K k6 deleteCase1)
        | side.right =>
          ((n1.p.bind rotateRight).bind (cursor.down side.right)).bind
            (deleteCase3K k6 deleteCase1))
    else deleteCase3K k6 deleteCase1 n

/-- The method `deleteCase1` over `deleteCase2K`: the deletion fixup in which every
entry into Case 6 goes through `k6`.  With `k6 := deleteCase6` it is `deleteCase1`. -/
def deleteCase1K (k6 : cursor K V → Option (cursor K V)) : Nat → cursor K V →
    Option (cursor K V)
  | 0, _ => none
  | fuel + 1, n =>
    match n.up with
    | [] => some n
    | _ :: _ => deleteCase2K k6 (deleteCase1K k6 fuel) n

/-- The condition under which Case 6 is meant to be entered: the sibling of `n` is
black and its child on the far side from `n` is red. -/
def case6Ready (n : cursor K V) : Bool :=
  match n.up with
  | [] => false
  | f :: _ =>
    match f.o with
    | node.nil => false
    | node.mk _ _ sc sl sr =>
      match f.s with
      | side.left => decide (sc = color.black ∧ nodeColor sr = color.red)
      | side.right => decide (sc = color.black ∧ nodeColor sl = color.red)

/-- The method `deleteCase6` behind a check of `case6Ready`: a failed check is `none`. -/
def deleteCase6Checked (n : cursor K V) : Option (cursor K V) :=
  if case6Ready n then deleteCase6 n else none

/-- The child of a sibling on the side of `n`, for `n` on side `s` of its parent. -/
def nearChild (s : side) (sl sr : node K V) : node K V :=
  match s with
  | side.left => sl
  | side.right => sr

/-- The child of a sibling on the side away from `n`. -/
def farChild (s : side) (sl sr : node K V) : node K V :=
  match s with
  | side.left => sr
  | side.right => sl

/-- A tree in which removing 1 enters Case 6: black 2 over black 1 and black 4, with
red 5 to the right of 4. -/
def sample6 : Tree Nat Nat :=
  ⟨node.mk 2 20 color.black (node.mk 1 10 color.black node.nil node.nil)
    (node.mk 4 40 color.black node.nil (node.mk 5 50 color.red node.nil node.nil)), 4⟩

/-- The number of iterations of the descent loop of `lookup` for `key`, which is also
the number of nodes the loop of `Add` compares `key` with. -/
def descentSteps [LinearOrder K] (key : K) : node K V → Nat
  | node.nil => 0
  | node.mk k _ _ l r =>
    if key = k then 1
    else if key < k then descentSteps key l + 1
    else descentSteps key r + 1

/-! ## Properties -/

set_option linter.unusedTactic false
set_option linter.unreachableTactic false

@[simp] theorem nodeColor_nil : nodeColor (node.nil : node K V) = color.black := rfl

@[simp] theorem nodeColor_mk (k : K) (v : V) (c : color) (l r : node K V) :
    nodeColor (node.mk k v c l r) = c := rfl

@[simp] theorem topColor_nil : topColor ([] : List (frame K V)) = color.black := rfl

@[simp] theorem topColor_cons (f : frame K V) (rest : List (frame K V)) :
    topColor (f :: rest) = f.c := rfl

theorem color_ne_red {c : color} : c ≠ color.red ↔ c = color.black := by
  cases c <;> simp

theorem toList_plug (t : node K V) (up : List (frame K V)) :
    toList (plug t up) = pathL up ++ toList t ++ pathR up := by
  induction up generalizing t with
  | nil => simp [plug, pathL, pathR]
  | cons f rest ih =>
    rw [plug, ih]
    cases hs : f.s <;> simp [frame.fill, hs, pathL, pathR, toList]

theorem size_eq_length (t : node K V) : size t = (toList t).length := by
  induction t with
  | nil => rfl
  | mk k v c l r ihl ihr => simp [size, toList, ihl, ihr]; omega

theorem balanced_plug (t : node K V) (up : List (frame K V)) :
    balanced (plug t up) ↔ balanced t ∧ pathBal up (bheight t) := by
  induction up generalizing t with
  | nil => simp [plug, pathBal]
  | cons f rest ih =>
    rw [plug, ih]
    cases hs : f.s
    · simp only [frame.fill, hs, balanced, bheight, pathBal]
      constructor
      · rintro ⟨⟨h1, h2, h3⟩, h4⟩; exact ⟨h2, h1.symm, h3, h4⟩
      · rintro ⟨h2, h1, h3, h4⟩; exact ⟨⟨h1.symm, h2, h3⟩, h4⟩
    · simp only [frame.fill, hs, balanced, bheight, pathBal]
      constructor
      · rintro ⟨⟨h1, h2, h3⟩, h4⟩; exact ⟨h3, h1, h2, h1 ▸ h4⟩
      · rintro ⟨h2, h1, h3, h4⟩; exact ⟨⟨h1, h3, h2⟩, h1 ▸ h4⟩

theorem noRedRed_plug (t : node K V) (up : List (frame K V)) :
    noRedRed (plug t up) ↔
      noRedRed t ∧ (topColor up = color.red → nodeColor t = color.black) ∧ pathRR up := by
  induction up generalizing t with
  | nil => simp [plug, pathRR, topColor]
  | cons f rest ih =>
    rw [plug, ih]
    cases hs : f.s <;> cases hc : f.c <;> cases ht : topColor rest <;>
      simp [frame.fill, hs, hc, ht, noRedRed, pathRR] <;> tauto

theorem nodeColor_plug (t : node K V) (up : List (frame K V)) :
    nodeColor (plug t up) = color.black ↔
      (up = [] → nodeColor t = color.black) ∧ pathRootBlack up := by
  induction up generalizing t with
  | nil => simp [plug, pathRootBlack]
  | cons f rest ih =>
    rw [plug, ih]
    cases rest with
    | nil => cases hs : f.s <;> simp [frame.fill, hs, nodeColor, pathRootBlack]
    | cons g rest => simp [pathRootBlack]


theorem plug_core (t : node K V) (up : List (frame K V))
    (h1 : noRedRed t) (h2 : balanced t) (h3 : pathBal up (bheight t)) (h4 : pathRR up)
    (h5 : topColor up = color.red → nodeColor t = color.black) (h6 : pathRootBlack up)
    (h7 : up = [] → nodeColor t = color.black) :
    nodeColor (plug t up) = color.black ∧ noRedRed (plug t up) ∧ balanced (plug t up) :=
  ⟨(nodeColor_plug t up).2 ⟨h7, h6⟩, (noRedRed_plug t up).2 ⟨h1, h5, h4⟩,
    (balanced_plug t up).2 ⟨h2, h3⟩⟩

theorem setColor_of_red {t : node K V} (h : nodeColor t = color.red) (c : color) :
    ∃ k v l r, t = node.mk k v color.red l r ∧ setColor c t = some (node.mk k v c l r) := by
  cases t with
  | nil => simp at h
  | mk k v c0 l r => simp at h; subst h; exact ⟨k, v, l, r, rfl, rfl⟩

@[simp] theorem blackUnit_black : blackUnit color.black = 1 := rfl

@[simp] theorem blackUnit_red : blackUnit color.red = 0 := rfl

theorem pathRootBlack_tail {f : frame K V} {rest : List (frame K V)}
    (h : pathRootBlack (f :: rest)) : pathRootBlack rest := by
  cases rest with
  | nil => trivial
  | cons g rest => exact h

theorem plug_core' (t : node K V) (up : List (frame K V)) (h : Nat)
    (h1 : noRedRed t) (h2 : balanced t) (h0 : bheight t = h) (h3 : pathBal up h) (h4 : pathRR up)
    (h5 : topColor up = color.red → nodeColor t = color.black) (h6 : pathRootBlack up)
    (h7 : up = [] → nodeColor t = color.black) : core (plug t up) :=
  plug_core t up h1 h2 (h0 ▸ h3) h4 h5 h6 h7

theorem insertCase1_spec (fuel : Nat) (n : cursor K V) (h : Nat)
    (hf : n.up.length < 2 * fuel) (hn : insertReady n h) :
    ∃ m, insertCase1 fuel n = some m ∧ core m.root ∧ toList m.root = toList n.root := by
  induction fuel generalizing n h with
  | zero => simp at hf
  | succ fuel ih =>
    obtain ⟨k, v, c, l, r, up⟩ := n
    obtain ⟨hc, hl, hr, hnl, hnr, hbl, hbr, hhl, hhr, hpb, hpr, hpk⟩ := hn
    simp only at hf hc hl hr hnl hnr hbl hbr hhl hhr hpb hpr hpk
    subst hc
    have hhere : noRedRed (node.mk k v color.red l r) := by simp [noRedRed, *]
    have bhere : balanced (node.mk k v color.red l r) := by simp [balanced, *]
    have hghere : bheight (node.mk k v color.red l r) = h := by simp [bheight, blackUnit, *]
    rcases up with _ | ⟨f, rest⟩
    · refine ⟨_, rfl, ?_⟩
      simp [core, cursor.root, cursor.here, plug, noRedRed, balanced, toList, *]
    · cases hfc : f.c
      · -- black parent
        refine ⟨⟨k, v, color.red, l, r, f :: rest⟩,
          by simp [insertCase1, insertCase2, cursor.parentColor, hfc], ?_, rfl⟩
        exact plug_core' _ _ h hhere bhere hghere hpb hpr (by simp [hfc]) hpk (by simp)
      · rcases rest with _ | ⟨g, rest⟩
        · simp [pathRootBlack, hfc] at hpk
        · obtain ⟨fk, fv, fc, fs, fo⟩ := f
          obtain ⟨gk, gv, gc, gs, go⟩ := g
          simp only at hfc
          subst hfc
          have hpk2 := pathRootBlack_tail (pathRootBlack_tail hpk)
          simp only [pathBal, pathRR, topColor_cons, blackUnit_red, true_implies, add_zero] at hpb hpr
          obtain ⟨hfo, hfob, hgo, hgob, hrestb⟩ := hpb
          obtain ⟨hfon, ⟨hfoc, hgc⟩, hgon, -, hrest⟩ := hpr
          subst hgc
          cases hu : nodeColor go
          · cases fs <;> cases gs <;>
            · simp only [insertCase1, insertCase2, insertCase3, insertCase4, insertCase5,
                cursor.parentColor, hu, cursor.grandParent, cursor.p, cursor.here, cursor.down,
                rotateLeft, rotateRight, nodeColor_mk, reduceCtorEq, if_false, if_true,
                Option.bind_some, Option.some_bind, and_self, and_false, false_and, and_true]
              refine ⟨_, rfl, ?_, ?_⟩
              · simp only [cursor.root, cursor.here, plug, frame.fill]
                simp only [bheight, blackUnit_black] at hrestb
                apply plug_core' _ rest (h + 1) <;>
                  (try simp only [noRedRed, balanced, bheight, blackUnit_black, blackUnit_red,
                    nodeColor_mk, reduceCtorEq, false_implies, true_and, implies_true,
                    true_implies, add_zero]) <;>
                  (repeat' apply And.intro) <;>
                  first | assumption | omega | tauto
              · simp [cursor.root, cursor.here, toList_plug, toList, pathL, pathR]
          · obtain ⟨uk, uv, ul, ur, rfl, hset⟩ := setColor_of_red hu color.black
            cases fs <;> cases gs <;>
            · simp only [insertCase1, insertCase2, insertCase3, cursor.parentColor, hset,
                cursor.grandParent, cursor.p, cursor.here, nodeColor_mk, reduceCtorEq, if_false,
                if_true, Option.bind_some, Option.some_bind]
              refine Exists.imp (fun m hm => ⟨hm.1, hm.2.1, hm.2.2.trans ?_⟩) (ih _ (h + 1) ?_ ?_)
              · simp [cursor.root, cursor.here, toList_plug, toList, pathL, pathR]
              · simp at hf ⊢; omega
              · simp only [bheight, blackUnit_red, add_zero, blackUnit_black, balanced,
                  noRedRed, nodeColor_mk] at hgo hgob hgon hrestb
                obtain ⟨hg1, hg2, hg3⟩ := hgob
                constructor <;>
                  (try simp only [noRedRed, balanced, bheight, blackUnit_black, blackUnit_red,
                    nodeColor_mk, reduceCtorEq, false_implies, true_and, implies_true,
                    true_implies, add_zero]) <;>
                  (repeat' apply And.intro) <;>
                  first | assumption | omega | tauto

theorem bheight_mem (t : node K V) : bheight t ∈ blackCounts t := by
  induction t with
  | nil => simp [bheight, blackCounts]
  | mk k v c l r ihl _ =>
    simp only [bheight, blackCounts, List.mem_map, List.mem_append]
    exact ⟨bheight l, Or.inl ihl, rfl⟩

theorem blackCounts_of_balanced (t : node K V) (h : balanced t) :
    ∀ a ∈ blackCounts t, a = bheight t := by
  induction t with
  | nil => simp [bheight, blackCounts]
  | mk k v c l r ihl ihr =>
    obtain ⟨h1, h2, h3⟩ := h
    intro a ha
    simp only [blackCounts, List.mem_map, List.mem_append] at ha
    obtain ⟨b, hb | hb, rfl⟩ := ha
    · rw [ihl h2 b hb, bheight]
    · rw [ihr h3 b hb, bheight, h1]

theorem equalBlack_iff_balanced (t : node K V) : equalBlack t ↔ balanced t := by
  constructor
  · intro h
    induction t with
    | nil => trivial
    | mk k v c l r ihl ihr =>
      have hmem : ∀ x, x ∈ blackCounts l ∨ x ∈ blackCounts r →
          x + blackUnit c ∈ blackCounts (node.mk k v c l r) := by
        intro x hx
        simp only [blackCounts, List.mem_map, List.mem_append]
        exact ⟨x, hx, rfl⟩
      refine ⟨?_, ihl ?_, ihr ?_⟩
      · have := h _ (hmem _ (Or.inl (bheight_mem l))) _ (hmem _ (Or.inr (bheight_mem r)))
        omega
      · intro a ha b hb
        have := h _ (hmem _ (Or.inl ha)) _ (hmem _ (Or.inl hb))
        omega
      · intro a ha b hb
        have := h _ (hmem _ (Or.inr ha)) _ (hmem _ (Or.inr hb))
        omega
  · intro h a ha b hb
    rw [blackCounts_of_balanced t h a ha, blackCounts_of_balanced t h b hb]

theorem redBlack_iff_core (t : node K V) : redBlack t ↔ core t := by
  simp only [redBlack, core, rootBlack, equalBlack_iff_balanced]

theorem core_plug_iff (t : node K V) (up : List (frame K V)) :
    core (plug t up) ↔ noRedRed t ∧ balanced t ∧ pathBal up (bheight t) ∧ pathRR up ∧
      (topColor up = color.red → nodeColor t = color.black) ∧ pathRootBlack up ∧
      (up = [] → nodeColor t = color.black) := by
  simp only [core, nodeColor_plug, noRedRed_plug, balanced_plug]
  tauto

theorem lookupFrom_root [LinearOrder K] (key : K) (t : node K V) (up : List (frame K V))
    (n : cursor K V) (h : lookupFrom key t up = some n) :
    plug n.here n.up = plug t up ∧ n.k = key := by
  induction t generalizing up with
  | nil => simp [lookupFrom] at h
  | mk k v c l r ihl ihr =>
    simp only [lookupFrom] at h
    split_ifs at h with h1 h2
    · cases h; exact ⟨rfl, h1.symm⟩
    · exact ihl _ h
    · exact ihr _ h

theorem addLoop_linked [LinearOrder K] (key : K) (value : V) (t : node K V)
    (up : List (frame K V)) (nn : cursor K V) (h : addLoop key value t up = descent.linked nn) :
    nn = ⟨key, value, color.red, node.nil, node.nil, nn.up⟩ ∧ plug node.nil nn.up = plug t up := by
  induction t generalizing up with
  | nil => simp only [addLoop, descent.linked.injEq] at h; subst h; exact ⟨rfl, rfl⟩
  | mk k v c l r ihl ihr =>
    simp only [addLoop] at h
    split_ifs at h with h1 h2
    · exact ihl _ h
    · exact ihr _ h

theorem addLoop_updated [LinearOrder K] (key : K) (value : V) (t : node K V)
    (up : List (frame K V)) (n : cursor K V) (h : addLoop key value t up = descent.updated n) :
    ∃ v0, plug (node.mk n.k v0 n.c n.l n.r) n.up = plug t up ∧ n.k = key ∧ n.v = value := by
  induction t generalizing up with
  | nil => simp [addLoop] at h
  | mk k v c l r ihl ihr =>
    simp only [addLoop] at h
    split_ifs at h with h1 h2
    · simp only [descent.updated.injEq] at h; subst h; exact ⟨v, rfl, h1.symm, rfl⟩
    · exact ihl _ h
    · exact ihr _ h

theorem Add_core [LinearOrder K] (t : Tree K V) (key : K) (value : V) (h : core t.root) :
    ∃ t1, t.Add key value = some t1 ∧ core t1.root := by
  unfold Tree.Add
  cases hd : addLoop key value t.root [] with
  | updated n =>
    obtain ⟨v0, h1, -, -⟩ := addLoop_updated key value t.root [] n hd
    refine ⟨_, rfl, ?_⟩
    simp only [plug] at h1
    rw [← h1, core_plug_iff] at h
    simp only [cursor.root, cursor.here, core_plug_iff]
    simpa [noRedRed, balanced, bheight] using h
  | linked nn =>
    obtain ⟨h1, h2⟩ := addLoop_linked key value t.root [] nn hd
    simp only [plug] at h2
    rw [← h2, core_plug_iff] at h
    obtain ⟨-, -, h3, h4, -, h5, -⟩ := h
    have hr : insertReady nn 0 := by
      rw [h1]
      exact ⟨rfl, rfl, rfl, trivial, trivial, trivial, trivial, rfl, rfl, h3, h4, h5⟩
    obtain ⟨m, hm, hc, -⟩ := insertCase1_spec (nn.up.length + 1) nn 0 (by omega) hr
    exact ⟨_, by simp only [hm, Option.map_some']; rfl, hc⟩

/-- C1: `Add` preserves the red-black colour invariants (black root, no red node with a
red child, equal black counts on all root-to-nil paths), and the tree of `New` has them. -/
theorem Add_preserves_redBlack [LinearOrder K] :
    redBlack (New : Tree K V).root ∧
      ∀ (t : Tree K V) (key : K) (value : V), redBlack t.root →
        ∃ t1, t.Add key value = some t1 ∧ redBlack t1.root := by
  refine ⟨(redBlack_iff_core _).2 ⟨rfl, trivial, trivial⟩, fun t key value h => ?_⟩
  obtain ⟨t1, h1, h2⟩ := Add_core t key value ((redBlack_iff_core _).1 h)
  exact ⟨t1, h1, (redBlack_iff_core _).2 h2⟩

theorem mk_of_black {t : node K V} {h : Nat} (hc : nodeColor t = color.black)
    (hb : bheight t = h + 1) : ∃ k v l r, t = node.mk k v color.black l r := by
  cases t with
  | nil => simp [bheight] at hb
  | mk k v c l r => simp at hc; subst hc; exact ⟨k, v, l, r, rfl⟩

theorem mk_of_red {t : node K V} (hc : nodeColor t = color.red) :
    ∃ k v l r, t = node.mk k v color.red l r := by
  cases t with
  | nil => simp at hc
  | mk k v c l r => simp at hc; subst hc; exact ⟨k, v, l, r, rfl⟩

theorem pathRootBlack_cons (f : frame K V) (rest : List (frame K V)) :
    pathRootBlack (f :: rest) ↔ (rest = [] → f.c = color.black) ∧ pathRootBlack rest := by
  cases rest with
  | nil => simp [pathRootBlack]
  | cons g rest => simp [pathRootBlack]

theorem deleteCase4_spec (n : cursor K V) (f : frame K V) (rest : List (frame K V)) (h : Nat)
    (hup : n.up = f :: rest) (hs : nodeColor f.o = color.black)
    (hpb : pathBal (f :: rest) (h + 1)) (hpr : pathRR (f :: rest))
    (hpk : pathRootBlack (f :: rest)) :
    (∀ sk sv sl sr, f.o = node.mk sk sv color.black sl sr →
        f.c = color.red ∨ nodeColor sl = color.red ∨ nodeColor sr = color.red) →
    ∃ up1, deleteCase4 n = some { n with up := up1 } ∧ fixedPath (f :: rest) up1 h := by
  intro hcase
  obtain ⟨k, v, c, l, r, up⟩ := n
  simp only at hup
  subst hup
  obtain ⟨fk, fv, fc, fs, fo⟩ := f
  simp only [pathBal, pathRR, topColor_cons] at hpb hpr hs
  obtain ⟨hso, hsb, hrestb⟩ := hpb
  obtain ⟨hsn, hfc, hrest⟩ := hpr
  rw [pathRootBlack_cons] at hpk
  obtain ⟨hpk1, hpk2⟩ := hpk
  simp only at hpk1
  obtain ⟨sk, sv, sl, sr, rfl⟩ := mk_of_black hs hso
  specialize hcase sk sv sl sr rfl
  simp only at hcase
  simp only [bheight, blackUnit_black, balanced, noRedRed, reduceCtorEq, false_implies,
    true_and, add_left_inj] at hso hsb hsn
  cases fs
  · cases hsr : nodeColor sr
    · cases hsl : nodeColor sl
      · -- both black: case 4
        have hfc1 : fc = color.red := by simpa [hsr, hsl] using hcase
        subst hfc1
        refine ⟨_, by simp [deleteCase4, hsl, hsr]; rfl, ?_⟩
        simp only [blackUnit_red, add_zero, true_implies, nodeColor_mk, true_and] at hrestb hfc
        casesm* _ ∧ _
        refine ⟨?_, ?_, ?_, ?_, ?_, ?_⟩ <;>
          (try simp only [pathBal, pathRR, pathRootBlack_cons, topColor_cons, pathL, pathR,
            toList, bheight, balanced, noRedRed, nodeColor_mk, blackUnit_black, blackUnit_red,
            reduceCtorEq, false_implies, true_and, implies_true, true_implies, add_zero,
            and_true]) <;>
          (repeat' apply And.intro) <;>
          first | assumption | omega | tauto
      · obtain ⟨slk, slv, sll, slr, rfl⟩ := mk_of_red hsl
        simp only [bheight, blackUnit_red, add_zero, balanced, noRedRed, nodeColor_mk,
          true_implies] at hso hsb hsn hfc
        refine ⟨_, by simp [deleteCase4, deleteCase5, deleteCase6, setColor, cursor.p, cursor.down,
          cursor.here, rotateLeft, rotateRight, nodeColor_mk, hsr]; rfl, ?_⟩
        casesm* _ ∧ _
        refine ⟨?_, ?_, ?_, ?_, ?_, ?_⟩ <;>
          (try simp only [pathBal, pathRR, pathRootBlack_cons, topColor_cons, pathL, pathR,
            toList, bheight, balanced, noRedRed, nodeColor_mk, blackUnit_black, blackUnit_red,
            reduceCtorEq, false_implies, true_and, implies_true, true_implies, add_zero,
            and_true, List.append_assoc, List.cons_append, List.nil_append,
            List.singleton_append]) <;>
          (repeat' apply And.intro) <;>
          first | assumption | omega | tauto
    · obtain ⟨srk, srv, srl, srr, rfl⟩ := mk_of_red hsr
      simp only [bheight, blackUnit_red, add_zero, balanced, noRedRed, nodeColor_mk,
        true_implies] at hso hsb hsn hfc
      refine ⟨_, by simp [deleteCase4, deleteCase5, deleteCase6, setColor, cursor.p, cursor.down,
          cursor.here, rotateLeft, rotateRight, nodeColor_mk]; rfl, ?_⟩
      casesm* _ ∧ _
      refine ⟨?_, ?_, ?_, ?_, ?_, ?_⟩ <;>
          (try simp only [pathBal, pathRR, pathRootBlack_cons, topColor_cons, pathL, pathR,
            toList, bheight, balanced, noRedRed, nodeColor_mk, blackUnit_black, blackUnit_red,
            reduceCtorEq, false_implies, true_and, implies_true, true_implies, add_zero,
            and_true, List.append_assoc, List.cons_append, List.nil_append,
            List.singleton_append]) <;>
          (repeat' apply And.intro) <;>
          first | assumption | omega | tauto
  · cases hsl : nodeColor sl
    · cases hsr : nodeColor sr
      · have hfc1 : fc = color.red := by simpa [hsr, hsl] using hcase
        subst hfc1
        refine ⟨_, by simp [deleteCase4, hsl, hsr]; rfl, ?_⟩
        simp only [blackUnit_red, add_zero, true_implies, nodeColor_mk, true_and] at hrestb hfc
        casesm* _ ∧ _
        refine ⟨?_, ?_, ?_, ?_, ?_, ?_⟩ <;>
          (try simp only [pathBal, pathRR, pathRootBlack_cons, topColor_cons, pathL, pathR,
            toList, bheight, balanced, noRedRed, nodeColor_mk, blackUnit_black, blackUnit_red,
            reduceCtorEq, false_implies, true_and, implies_true, true_implies, add_zero,
            and_true, List.append_assoc, List.cons_append, List.nil_append,
            List.singleton_append]) <;>
          (repeat' apply And.intro) <;>
          first | assumption | omega | tauto
      · obtain ⟨srk, srv, srl, srr, rfl⟩ := mk_of_red hsr
        simp only [bheight, blackUnit_red, add_zero, balanced, noRedRed, nodeColor_mk,
          true_implies] at hso hsb hsn hfc
        refine ⟨_, by simp [deleteCase4, deleteCase5, deleteCase6, setColor, cursor.p, cursor.down,
          cursor.here, rotateLeft, rotateRight, nodeColor_mk, hsl]; rfl, ?_⟩
        casesm* _ ∧ _
        refine ⟨?_, ?_, ?_, ?_, ?_, ?_⟩ <;>
          (try simp only [pathBal, pathRR, pathRootBlack_cons, topColor_cons, pathL, pathR,
            toList, bheight, balanced, noRedRed, nodeColor_mk, blackUnit_black, blackUnit_red,
            reduceCtorEq, false_implies, true_and, implies_true, true_implies, add_zero,
            and_true, List.append_assoc, List.cons_append, List.nil_append,
            List.singleton_append]) <;>
          (repeat' apply And.intro) <;>
          first | assumption | omega | tauto
    · obtain ⟨slk, slv, sll, slr, rfl⟩ := mk_of_red hsl
      simp only [bheight, blackUnit_red, add_zero, balanced, noRedRed, nodeColor_mk,
        true_implies] at hso hsb hsn hfc
      refine ⟨_, by simp [deleteCase4, deleteCase5, deleteCase6, setColor, cursor.p, cursor.down,
          cursor.here, rotateLeft, rotateRight, nodeColor_mk]; rfl, ?_⟩
      casesm* _ ∧ _
      refine ⟨?_, ?_, ?_, ?_, ?_, ?_⟩ <;>
          (try simp only [pathBal, pathRR, pathRootBlack_cons, topColor_cons, pathL, pathR,
            toList, bheight, balanced, noRedRed, nodeColor_mk, blackUnit_black, blackUnit_red,
            reduceCtorEq, false_implies, true_and, implies_true, true_implies, add_zero,
            and_true, List.append_assoc, List.cons_append, List.nil_append,
            List.singleton_append]) <;>
          (repeat' apply And.intro) <;>
          first | assumption | omega | tauto

theorem deleteCase1_spec (fuel : Nat) (n : cursor K V) (h : Nat)
    (hf : n.up.length < fuel) (hpb : pathBal n.up (h + 1)) (hpr : pathRR n.up)
    (hpk : pathRootBlack n.up) :
    ∃ up1, deleteCase1 fuel n = some { n with up := up1 } ∧ fixedPath n.up up1 h := by
  induction fuel generalizing n h with
  | zero => simp at hf
  | succ fuel ih =>
    obtain ⟨k, v, c, l, r, up⟩ := n
    simp only at hf hpb hpr hpk
    rcases up with _ | ⟨f, rest⟩
    · exact ⟨[], rfl, trivial, trivial, trivial, rfl, rfl, rfl⟩
    · cases hs : nodeColor f.o
      · -- black sibling
        obtain ⟨fk, fv, fc, fs, fo⟩ := f
        have hpb0 := hpb
        have hpr0 := hpr
        have hpk0 := hpk
        simp only [pathBal, pathRR, topColor_cons] at hpb hpr hs
        obtain ⟨hso, hsb, hrestb⟩ := hpb
        obtain ⟨hsn, hfc, hrest⟩ := hpr
        rw [pathRootBlack_cons] at hpk
        obtain ⟨hpk1, hpk2⟩ := hpk
        obtain ⟨sk, sv, sl, sr, rfl⟩ := mk_of_black hs hso
        by_cases h3 : fc = color.black ∧ nodeColor sl = color.black ∧ nodeColor sr = color.black
        · obtain ⟨rfl, hsl, hsr⟩ := h3
          simp only [bheight, blackUnit_black, balanced, noRedRed, reduceCtorEq, false_implies,
            true_and, add_left_inj] at hso hsb hsn hrestb
          cases fs
          · obtain ⟨upP, hP1, hP2⟩ := ih ⟨fk, fv, color.black, node.mk k v c l r,
              node.mk sk sv color.red sl sr, rest⟩ (h + 1) (by simp at hf ⊢; omega) hrestb hrest hpk2
            refine ⟨⟨fk, fv, color.black, side.left, node.mk sk sv color.red sl sr⟩ :: upP, ?_, ?_⟩
            · simp [deleteCase1, deleteCase2, deleteCase3, hsl, hsr, cursor.p, cursor.here, hP1,
                cursor.down]
            · obtain ⟨q1, q2, q3, q4, q5, q6⟩ := hP2
              casesm* _ ∧ _
              refine ⟨?_, ?_, ?_, ?_, ?_, ?_⟩ <;>
                (try simp only [pathBal, pathRR, pathRootBlack_cons, topColor_cons, pathL, pathR,
                  toList, bheight, balanced, noRedRed, nodeColor_mk, blackUnit_black,
                  blackUnit_red, reduceCtorEq, false_implies, true_and, implies_true,
                  true_implies, add_zero, and_true, q5, q6]) <;>
                (repeat' apply And.intro) <;>
                first | assumption | omega | tauto
          · obtain ⟨upP, hP1, hP2⟩ := ih ⟨fk, fv, color.black, node.mk sk sv color.red sl sr,
              node.mk k v c l r, rest⟩ (h + 1) (by simp at hf ⊢; omega) hrestb hrest hpk2
            refine ⟨⟨fk, fv, color.black, side.right, node.mk sk sv color.red sl sr⟩ :: upP, ?_, ?_⟩
            · simp [deleteCase1, deleteCase2, deleteCase3, hsl, hsr, cursor.p, cursor.here, hP1,
                cursor.down]
            · obtain ⟨q1, q2, q3, q4, q5, q6⟩ := hP2
              casesm* _ ∧ _
              refine ⟨?_, ?_, ?_, ?_, ?_, ?_⟩ <;>
                (try simp only [pathBal, pathRR, pathRootBlack_cons, topColor_cons, pathL, pathR,
                  toList, bheight, balanced, noRedRed, nodeColor_mk, blackUnit_black,
                  blackUnit_red, reduceCtorEq, false_implies, true_and, implies_true,
                  true_implies, add_zero, and_true, q5, q6]) <;>
                (repeat' apply And.intro) <;>
                first | assumption | omega | tauto
        · have key := deleteCase4_spec ⟨k, v, c, l, r, _⟩ _ rest h rfl hs hpb0 hpr0 hpk0
            (by
              intro sk1 sv1 sl1 sr1 he
              simp only [node.mk.injEq] at he
              obtain ⟨-, -, -, rfl, rfl⟩ := he
              simp only
              by_contra hcon
              simp only [not_or, color_ne_red] at hcon
              exact h3 hcon)
          obtain ⟨up1, h1, h2⟩ := key
          refine ⟨up1, ?_, h2⟩
          rw [← h1]
          simp only [deleteCase1, deleteCase2, deleteCase3, nodeColor_mk, reduceCtorEq, if_false]
          split_ifs with a b
          · exact absurd ⟨a.1, b⟩ h3
          · rfl
          · rfl
      · -- red sibling: case 2, then the terminal cases under a red parent
        obtain ⟨fk, fv, fc, fs, fo⟩ := f
        simp only [pathBal, pathRR, topColor_cons] at hpb hpr hs
        obtain ⟨hso, hsb, hrestb⟩ := hpb
        obtain ⟨hsn, hfc, hrest⟩ := hpr
        rw [pathRootBlack_cons] at hpk
        obtain ⟨hpk1, hpk2⟩ := hpk
        obtain ⟨sk, sv, sl, sr, rfl⟩ := mk_of_red hs
        have hfc1 : fc = color.black := by
          cases fc
          · rfl
          · simpa using (hfc rfl).1
        subst hfc1
        simp only [bheight, blackUnit_black, blackUnit_red, add_zero, balanced, noRedRed,
          true_implies] at hso hsb hsn hrestb
        casesm* _ ∧ _
        cases fs
        · have key := deleteCase4_spec ⟨k, v, c, l, r,
            ⟨fk, fv, color.red, side.left, sl⟩ :: ⟨sk, sv, color.black, side.left, sr⟩ :: rest⟩
            _ _ h rfl (by assumption)
            (by simp only [pathBal, blackUnit_black, blackUnit_red, add_zero]
                (repeat' apply And.intro) <;> first | assumption | trivial | omega)
            (by simp only [pathRR, topColor_cons, reduceCtorEq, false_implies, true_implies]
                (repeat' apply And.intro) <;> first | assumption | trivial | rfl)
            (by simp only [pathRootBlack_cons, implies_true, true_and]
                (repeat' apply And.intro) <;> first | assumption | trivial | tauto)
            (fun _ _ _ _ _ => Or.inl rfl)
          obtain ⟨up1, h1, q1, q2, q3, q4, q5, q6⟩ := key
          refine ⟨up1, ?_, q1, q2, q3, q4, ?_, ?_⟩
          · simp only at h1
            rw [← h1]
            simp [deleteCase1, deleteCase2, deleteCase3, setColor, cursor.p, cursor.here,
              rotateLeft, cursor.down]
          · rw [q5]; simp [pathL]
          · rw [q6]; simp [pathR, toList]
        · have key := deleteCase4_spec ⟨k, v, c, l, r,
            ⟨fk, fv, color.red, side.right, sr⟩ :: ⟨sk, sv, color.black, side.right, sl⟩ :: rest⟩
            _ _ h rfl (by assumption)
            (by simp only [pathBal, blackUnit_black, blackUnit_red, add_zero]
                (repeat' apply And.intro) <;> first | assumption | trivial | omega)
            (by simp only [pathRR, topColor_cons, reduceCtorEq, false_implies, true_implies]
                (repeat' apply And.intro) <;> first | assumption | trivial | rfl)
            (by simp only [pathRootBlack_cons, implies_true, true_and]
                (repeat' apply And.intro) <;> first | assumption | trivial | tauto)
            (fun _ _ _ _ _ => Or.inl rfl)
          obtain ⟨up1, h1, q1, q2, q3, q4, q5, q6⟩ := key
          refine ⟨up1, ?_, q1, q2, q3, q4, ?_, ?_⟩
          · simp only at h1
            rw [← h1]
            simp [deleteCase1, deleteCase2, deleteCase3, setColor, cursor.p, cursor.here,
              rotateRight, cursor.down]
          · rw [q5]; simp [pathL, toList]
          · rw [q6]; simp [pathR]

theorem plug_append (t : node K V) (a b : List (frame K V)) :
    plug t (a ++ b) = plug (plug t a) b := by
  induction a generalizing t with
  | nil => rfl
  | cons f a ih => simp only [List.cons_append, plug]; exact ih _

theorem pathL_append (a b : List (frame K V)) : pathL (a ++ b) = pathL b ++ pathL a := by
  induction a with
  | nil => simp [pathL]
  | cons f a ih => cases hs : f.s <;> simp [pathL, hs, ih]

theorem pathR_append (a b : List (frame K V)) : pathR (a ++ b) = pathR a ++ pathR b := by
  induction a with
  | nil => simp [pathR]
  | cons f a ih => cases hs : f.s <;> simp [pathR, hs, ih]

theorem maxNodeFrom_eq (k : K) (v : V) (c : color) (l r : node K V) :
    ∃ k1 v1 c1 l1 fs, (∀ up, maxNodeFrom k v c l r up = ⟨k1, v1, c1, l1, node.nil, fs ++ up⟩) ∧
      plug (node.mk k1 v1 c1 l1 node.nil) fs = node.mk k v c l r ∧ pathR fs = [] := by
  induction r generalizing k v c l with
  | nil => exact ⟨k, v, c, l, [], fun up => rfl, rfl, rfl⟩
  | mk k2 v2 c2 l2 r2 _ ih =>
    obtain ⟨k1, v1, c1, l1, fs, h1, h2, h3⟩ := ih k2 v2 c2 l2
    refine ⟨k1, v1, c1, l1, fs ++ [⟨k, v, c, side.right, l⟩], fun up => ?_, ?_, ?_⟩
    · simp [maxNodeFrom, h1]
    · rw [plug_append, h2]; rfl
    · rw [pathR_append, h3]; rfl

theorem core_plug_congr (t t1 : node K V) (up : List (frame K V))
    (h1 : noRedRed t ↔ noRedRed t1) (h2 : balanced t ↔ balanced t1)
    (h3 : bheight t = bheight t1) (h4 : nodeColor t = nodeColor t1) :
    core (plug t up) ↔ core (plug t1 up) := by
  rw [core_plug_iff, core_plug_iff, h1, h2, h3, h4]

theorem toPredecessor_spec (n0 : cursor K V) :
    ((toPredecessor n0).l = node.nil ∨ (toPredecessor n0).r = node.nil) ∧
    (core n0.root → core (toPredecessor n0).root) ∧
    pathL (toPredecessor n0).up ++ (toList (toPredecessor n0).l ++ toList (toPredecessor n0).r) ++
        pathR (toPredecessor n0).up =
      pathL n0.up ++ (toList n0.l ++ toList n0.r) ++ pathR n0.up := by
  obtain ⟨k, v, c, l, r, up⟩ := n0
  cases l with
  | nil => exact ⟨Or.inl rfl, id, rfl⟩
  | mk lk lv lc ll lr =>
    cases r with
    | nil => exact ⟨Or.inr rfl, id, rfl⟩
    | mk rk rv rc rl rr =>
      obtain ⟨k1, v1, c1, l1, fs, h1, h2, h3⟩ := maxNodeFrom_eq lk lv lc ll lr
      refine ⟨?_, ?_, ?_⟩ <;> simp only [toPredecessor, h1]
      · exact Or.inr trivial
      · simp only [cursor.root, cursor.here, plug_append, h2, plug, frame.fill]
        exact (core_plug_congr (node.mk k v c (node.mk lk lv lc ll lr) (node.mk rk rv rc rl rr))
          (node.mk k1 v1 c (node.mk lk lv lc ll lr) (node.mk rk rv rc rl rr)) up
          (by simp [noRedRed]) (by simp [balanced]) (by simp [bheight]) rfl).1
      · have h4 := congrArg toList h2
        rw [toList_plug] at h4
        simp only [toList, h3, List.append_nil] at h4
        simp only [pathL_append, pathR_append, h3, pathL, pathR, toList, ← h4]
        simp

theorem child_spec (k : K) (v : V) (c : color) (l r : node K V) (up : List (frame K V))
    (ha : l = node.nil ∨ r = node.nil) (h1 : noRedRed (node.mk k v c l r))
    (h2 : balanced (node.mk k v c l r)) :
    ∃ child, cursor.child ⟨k, v, c, l, r, up⟩ = child ∧
      bheight child = bheight l ∧ balanced child ∧ noRedRed child ∧
      toList child = toList l ++ toList r ∧ (c = color.red → nodeColor child = color.black) := by
  simp only [noRedRed, balanced] at h1 h2
  obtain ⟨h3, h4, h5⟩ := h1
  obtain ⟨h6, h7, h8⟩ := h2
  cases r with
  | nil => exact ⟨l, rfl, rfl, h7, h4, by simp [toList], fun hc => (h3 hc).1⟩
  | mk rk rv rc rl rr =>
    rcases ha with rfl | ha
    · exact ⟨_, rfl, h6.symm, h8, h5, by simp [toList], fun hc => (h3 hc).2⟩
    · cases ha

theorem setColor_getD (t : node K V) :
    nodeColor ((setColor color.black t).getD t) = color.black ∧
      (noRedRed t → noRedRed ((setColor color.black t).getD t)) ∧
      (balanced t → balanced ((setColor color.black t).getD t)) ∧
      toList ((setColor color.black t).getD t) = toList t := by
  cases t with
  | nil => exact ⟨rfl, id, id, rfl⟩
  | mk k v c l r =>
    refine ⟨rfl, ?_, ?_, rfl⟩
    · simp only [setColor, Option.getD_some, noRedRed]; tauto
    · simp only [setColor, Option.getD_some, balanced]; tauto

theorem Remove_found [LinearOrder K] (t : Tree K V) (key : K) (n0 : cursor K V)
    (hl : t.lookup key = some n0) (hc : core t.root) :
    ∃ t1, t.Remove key = some (t1, true) ∧ core t1.root ∧ t1.count = t.count - 1 ∧
      toList t.root = pathL n0.up ++ (toList n0.l ++ (key, n0.v) :: toList n0.r) ++ pathR n0.up ∧
      toList t1.root = pathL n0.up ++ (toList n0.l ++ toList n0.r) ++ pathR n0.up := by
  obtain ⟨hroot, hkey⟩ := lookupFrom_root key t.root [] n0 hl
  simp only [plug] at hroot
  obtain ⟨ha, hb, hlist⟩ := toPredecessor_spec n0
  have hcn : core (toPredecessor n0).root := hb (by rw [cursor.root, hroot]; exact hc)
  have horig : toList t.root =
      pathL n0.up ++ (toList n0.l ++ (key, n0.v) :: toList n0.r) ++ pathR n0.up := by
    rw [← hroot, toList_plug, cursor.here, toList, hkey]
  simp only [Tree.Remove, hl]
  rw [← hlist]
  generalize toPredecessor n0 = n at ha hcn
  obtain ⟨k, v, c, l, r, up⟩ := n
  simp only [cursor.root, cursor.here, core_plug_iff] at hcn
  simp only at ha
  obtain ⟨g1, g2, g3, g4, g5, g6, g7⟩ := hcn
  obtain ⟨child, e1, e2, e3, e4, e5, e6⟩ := child_spec k v c l r up ha g1 g2
  simp only [cursor.child] at e1 ⊢
  simp only [e1]
  cases c
  · -- black node: fixup first
    simp only [bheight, blackUnit_black] at g3
    obtain ⟨up1, h1, q1, q2, q3, q4, q5, q6⟩ :=
      deleteCase1_spec (up.length + 1) ⟨k, v, nodeColor child, l, r, up⟩ (bheight l)
        (by simp) g3 g4 g6
    simp only at h1
    simp only [if_true, h1, Option.map_some']
    refine ⟨_, rfl, ?_, rfl, horig, ?_⟩
    · cases up1 with
      | nil =>
        obtain ⟨s1, s2, s3, -⟩ := setColor_getD child
        exact ⟨s1, s2 e4, s3 e3⟩
      | cons f1 rest1 =>
        exact plug_core' child (f1 :: rest1) (bheight l) e4 e3 e2 q1 q2
          (fun hr => by rw [q4] at hr; cases hr) q3 (by simp)
    · cases up1 with
      | nil =>
        simp only [toList_plug, (setColor_getD child).2.2.2, e5, q5, q6]
      | cons f1 rest1 =>
        simp only [toList_plug, e5, q5, q6]
  · -- red node: unlinked as it is
    simp only [bheight, blackUnit_red, add_zero, nodeColor_mk, reduceCtorEq, imp_false] at g3 g7
    simp only [reduceCtorEq, if_false, Option.map_some']
    cases up with
    | nil => exact absurd rfl g7
    | cons f1 rest1 =>
      refine ⟨_, rfl, ?_, rfl, horig, ?_⟩
      · exact plug_core' child (f1 :: rest1) (bheight l) e4 e3 e2 g3 g4 (fun _ => e6 rfl) g6
          (by simp)
      · simp only [toList_plug, e5]

theorem sortedKeys_append [LinearOrder K] (A B : List (K × V)) :
    sortedKeys (A ++ B) ↔ sortedKeys A ∧ sortedKeys B ∧ ∀ x ∈ A, ∀ y ∈ B, x.1 < y.1 := by
  simp only [sortedKeys, List.Sorted, List.map_append, List.pairwise_append, List.mem_map,
    forall_exists_index, and_imp, forall_apply_eq_imp_iff₂]

theorem sortedKeys_cons [LinearOrder K] (a : K × V) (B : List (K × V)) :
    sortedKeys (a :: B) ↔ (∀ y ∈ B, a.1 < y.1) ∧ sortedKeys B := by
  simp only [sortedKeys, List.Sorted, List.map_cons, List.pairwise_cons, List.mem_map,
    forall_exists_index, and_imp, forall_apply_eq_imp_iff₂]

theorem insertList_append_lt [LinearOrder K] (key : K) (value : V) (A B : List (K × V))
    (a : K) (b : V) (h : key < a) :
    insertList key value (A ++ (a, b) :: B) = insertList key value A ++ (a, b) :: B := by
  induction A with
  | nil => simp [insertList, h, ne_of_lt h]
  | cons x A ih =>
    obtain ⟨xa, xb⟩ := x
    simp only [List.cons_append, insertList]
    split_ifs <;> simp [ih]

theorem insertList_append_gt [LinearOrder K] (key : K) (value : V) (A B : List (K × V))
    (a : K) (b : V) (h : a < key) (hA : ∀ x ∈ A, x.1 < key) :
    insertList key value (A ++ (a, b) :: B) = A ++ (a, b) :: insertList key value B := by
  induction A with
  | nil => simp [insertList, not_lt_of_gt h, ne_of_gt h]
  | cons x A ih =>
    obtain ⟨xa, xb⟩ := x
    have hx : xa < key := hA (xa, xb) (List.mem_cons_self _ _)
    simp only [List.cons_append, insertList, ne_of_gt hx, not_lt_of_gt hx, if_false]
    exact congrArg _ (ih (fun y hy => hA y (List.mem_cons_of_mem _ hy)))

theorem insertList_append_eq [LinearOrder K] (key : K) (value : V) (A B : List (K × V))
    (b : V) (hA : ∀ x ∈ A, x.1 < key) :
    insertList key value (A ++ (key, b) :: B) = A ++ (key, value) :: B := by
  induction A with
  | nil => simp [insertList]
  | cons x A ih =>
    obtain ⟨xa, xb⟩ := x
    have hx : xa < key := hA (xa, xb) (List.mem_cons_self _ _)
    simp only [List.cons_append, insertList, ne_of_gt hx, not_lt_of_gt hx, if_false]
    exact congrArg _ (ih (fun y hy => hA y (List.mem_cons_of_mem _ hy)))

theorem sortedKeys_mk [LinearOrder K] (k : K) (v : V) (c : color) (l r : node K V) :
    sortedKeys (toList (node.mk k v c l r)) ↔
      sortedKeys (toList l) ∧ sortedKeys (toList r) ∧ (∀ x ∈ toList l, x.1 < k) ∧
        (∀ y ∈ toList r, k < y.1) := by
  simp only [toList, sortedKeys_append, sortedKeys_cons, List.mem_cons, forall_eq_or_imp]
  constructor
  · rintro ⟨h1, ⟨h2, h3⟩, h4⟩
    exact ⟨h1, h3, fun x hx => (h4 x hx).1, h2⟩
  · rintro ⟨h1, h2, h3, h4⟩
    exact ⟨h1, ⟨h4, h2⟩, fun x hx => ⟨h3 x hx, fun y hy => lt_trans (h3 x hx) (h4 y hy)⟩⟩

theorem addLoop_toList [LinearOrder K] (key : K) (value : V) (t : node K V)
    (up : List (frame K V)) (ho : sortedKeys (toList t)) :
    (∀ n, addLoop key value t up = descent.updated n →
      toList n.root = pathL up ++ insertList key value (toList t) ++ pathR up ∧
        ∃ v0, (key, v0) ∈ toList t) ∧
    (∀ nn, addLoop key value t up = descent.linked nn →
      toList nn.root = pathL up ++ insertList key value (toList t) ++ pathR up ∧
        ∀ v0, (key, v0) ∉ toList t) := by
  induction t generalizing up with
  | nil =>
    refine ⟨fun n h => by simp [addLoop] at h, fun nn h => ?_⟩
    simp only [addLoop, descent.linked.injEq] at h
    subst h
    simp [cursor.root, cursor.here, toList_plug, toList, insertList]
  | mk k v c l r ihl ihr =>
    obtain ⟨h1, h2, h3, h4⟩ := (sortedKeys_mk k v c l r).1 ho
    simp only [addLoop]
    split_ifs with e1 e2
    · subst e1
      refine ⟨fun n h => ?_, fun nn h => by simp at h⟩
      simp only [descent.updated.injEq] at h
      subst h
      refine ⟨?_, v, by simp [toList]⟩
      simp only [cursor.root, cursor.here, toList_plug, toList]
      rw [insertList_append_eq key value _ _ v h3]
    · have e3 : insertList key value (toList (node.mk k v c l r)) =
          insertList key value (toList l) ++ (k, v) :: toList r :=
        insertList_append_lt key value _ _ k v e2
      have e4 : ∀ v0, (key, v0) ∈ toList (node.mk k v c l r) ↔ (key, v0) ∈ toList l := by
        intro v0
        simp only [toList, List.mem_append, List.mem_cons, Prod.mk.injEq]
        constructor
        · rintro (h | ⟨h, -⟩ | h)
          · exact h
          · exact absurd h e1
          · exact absurd (h4 _ h) (not_lt_of_gt e2)
        · exact Or.inl
      obtain ⟨i1, i2⟩ := ihl (⟨k, v, c, side.left, r⟩ :: up) h1
      refine ⟨fun n h => ?_, fun nn h => ?_⟩
      · obtain ⟨j1, v0, j2⟩ := i1 n h
        refine ⟨?_, v0, (e4 v0).2 j2⟩
        rw [j1, e3]; simp [pathL, pathR]
      · obtain ⟨j1, j2⟩ := i2 nn h
        refine ⟨?_, fun v0 hv => j2 v0 ((e4 v0).1 hv)⟩
        rw [j1, e3]; simp [pathL, pathR]
    · have e5 : k < key := lt_of_le_of_ne (not_lt.1 e2) (Ne.symm e1)
      have e3 : insertList key value (toList (node.mk k v c l r)) =
          toList l ++ (k, v) :: insertList key value (toList r) :=
        insertList_append_gt key value _ _ k v e5 (fun x hx => lt_trans (h3 x hx) e5)
      have e4 : ∀ v0, (key, v0) ∈ toList (node.mk k v c l r) ↔ (key, v0) ∈ toList r := by
        intro v0
        simp only [toList, List.mem_append, List.mem_cons, Prod.mk.injEq]
        constructor
        · rintro (h | ⟨h, -⟩ | h)
          · exact absurd (h3 _ h) (not_lt_of_gt e5)
          · exact absurd h e1
          · exact h
        · exact fun h => Or.inr (Or.inr h)
      obtain ⟨i1, i2⟩ := ihr (⟨k, v, c, side.right, l⟩ :: up) h2
      refine ⟨fun n h => ?_, fun nn h => ?_⟩
      · obtain ⟨j1, v0, j2⟩ := i1 n h
        refine ⟨?_, v0, (e4 v0).2 j2⟩
        rw [j1, e3]; simp [pathL, pathR]
      · obtain ⟨j1, j2⟩ := i2 nn h
        refine ⟨?_, fun v0 hv => j2 v0 ((e4 v0).1 hv)⟩
        rw [j1, e3]; simp [pathL, pathR]

theorem insertList_sorted [LinearOrder K] (key : K) (value : V) (L : List (K × V))
    (h : sortedKeys L) :
    sortedKeys (insertList key value L) ∧
      ∀ z, (∀ y ∈ L, z < y.1) → z < key → ∀ y ∈ insertList key value L, z < y.1 := by
  induction L with
  | nil =>
    refine ⟨by simp [insertList, sortedKeys], fun z _ hz y hy => ?_⟩
    simp only [insertList, List.mem_singleton] at hy
    subst hy; exact hz
  | cons x L ih =>
    obtain ⟨a, b⟩ := x
    obtain ⟨h1, h2⟩ := (sortedKeys_cons _ _).1 h
    obtain ⟨i1, i2⟩ := ih h2
    simp only [insertList]
    split_ifs with e1 e2
    · subst e1
      refine ⟨(sortedKeys_cons _ _).2 ⟨h1, h2⟩, fun z hz hzk y hy => ?_⟩
      rcases List.mem_cons.1 hy with rfl | hy
      · exact hzk
      · exact hz y (List.mem_cons_of_mem _ hy)
    · refine ⟨(sortedKeys_cons _ _).2 ⟨fun y hy => ?_, h⟩, fun z hz hzk y hy => ?_⟩
      · rcases List.mem_cons.1 hy with rfl | hy
        · exact e2
        · exact lt_trans e2 (h1 y hy)
      · rcases List.mem_cons.1 hy with rfl | hy
        · exact hzk
        · exact hz y hy
    · have e3 : a < key := lt_of_le_of_ne (not_lt.1 e2) (Ne.symm e1)
      refine ⟨(sortedKeys_cons _ _).2 ⟨i2 a h1 e3, i1⟩, fun z hz hzk y hy => ?_⟩
      rcases List.mem_cons.1 hy with rfl | hy
      · exact hz _ (List.mem_cons_self _ _)
      · exact i2 z (fun y hy => hz y (List.mem_cons_of_mem _ hy)) hzk y hy

theorem mem_insertList [LinearOrder K] (key : K) (value : V) (L : List (K × V))
    (h : sortedKeys L) (a : K) (b : V) :
    (a, b) ∈ insertList key value L ↔ (a = key ∧ b = value) ∨ (a ≠ key ∧ (a, b) ∈ L) := by
  induction L with
  | nil => simp [insertList]
  | cons x L ih =>
    obtain ⟨xa, xb⟩ := x
    obtain ⟨h1, h2⟩ := (sortedKeys_cons _ _).1 h
    simp only [insertList]
    split_ifs with e1 e2
    · subst e1
      simp only [List.mem_cons, Prod.mk.injEq]
      constructor
      · rintro (h | h)
        · exact Or.inl h
        · exact Or.inr ⟨ne_of_gt (h1 _ h), Or.inr h⟩
      · rintro (h | ⟨h3, h4 | h4⟩)
        · exact Or.inl h
        · exact absurd h4.1 h3
        · exact Or.inr h4
    · simp only [List.mem_cons, Prod.mk.injEq]
      constructor
      · rintro (h | h | h)
        · exact Or.inl h
        · exact Or.inr ⟨by rw [h.1]; exact Ne.symm e1, Or.inl h⟩
        · exact Or.inr ⟨ne_of_gt (lt_trans e2 (h1 _ h)), Or.inr h⟩
      · rintro (h | ⟨-, h4 | h4⟩)
        · exact Or.inl h
        · exact Or.inr (Or.inl h4)
        · exact Or.inr (Or.inr h4)
    · have e3 : xa < key := lt_of_le_of_ne (not_lt.1 e2) (Ne.symm e1)
      simp only [List.mem_cons, Prod.mk.injEq, ih h2]
      constructor
      · rintro (h | h | h)
        · exact Or.inr ⟨by rw [h.1]; exact ne_of_lt e3, Or.inl h⟩
        · exact Or.inl h
        · exact Or.inr ⟨h.1, Or.inr h.2⟩
      · rintro (h | ⟨h3, h4 | h4⟩)
        · exact Or.inr (Or.inl h)
        · exact Or.inl h4
        · exact Or.inr (Or.inr ⟨h3, h4⟩)

theorem length_insertList [LinearOrder K] (key : K) (value : V) (L : List (K × V))
    (h : sortedKeys L) :
    ((∃ v0, (key, v0) ∈ L) → (insertList key value L).length = L.length) ∧
      ((∀ v0, (key, v0) ∉ L) → (insertList key value L).length = L.length + 1) := by
  induction L with
  | nil => simp [insertList]
  | cons x L ih =>
    obtain ⟨xa, xb⟩ := x
    obtain ⟨h1, h2⟩ := (sortedKeys_cons _ _).1 h
    obtain ⟨i1, i2⟩ := ih h2
    simp only [insertList]
    split_ifs with e1 e2
    · subst e1
      refine ⟨fun _ => rfl, fun hn => absurd (List.mem_cons_self _ _) (hn xb)⟩
    · refine ⟨?_, fun _ => rfl⟩
      rintro ⟨v0, hv⟩
      rcases List.mem_cons.1 hv with hv | hv
      · simp only [Prod.mk.injEq] at hv; exact absurd hv.1 e1
      · exact absurd (h1 _ hv) (not_lt_of_gt e2)
    · refine ⟨?_, fun hn => ?_⟩
      · rintro ⟨v0, hv⟩
        rcases List.mem_cons.1 hv with hv | hv
        · simp only [Prod.mk.injEq] at hv; exact absurd hv.1 e1
        · simp only [List.length_cons, i1 ⟨v0, hv⟩]
      · simp only [List.length_cons, i2 (fun v0 hv => hn v0 (List.mem_cons_of_mem _ hv))]

theorem sortedKeys_unique [LinearOrder K] (L : List (K × V)) (h : sortedKeys L) (k : K)
    (v1 v2 : V) (h1 : (k, v1) ∈ L) (h2 : (k, v2) ∈ L) : v1 = v2 := by
  induction L with
  | nil => simp at h1
  | cons x L ih =>
    obtain ⟨g1, g2⟩ := (sortedKeys_cons _ _).1 h
    rcases List.mem_cons.1 h1 with e1 | e1 <;> rcases List.mem_cons.1 h2 with e2 | e2
    · rw [← e2] at e1; exact (Prod.mk.inj e1).2
    · subst e1; exact absurd (g1 _ e2) (lt_irrefl _)
    · subst e2; exact absurd (g1 _ e1) (lt_irrefl _)
    · exact ih g2 e1 e2

theorem lookupFrom_mem [LinearOrder K] (key : K) (t : node K V) (up : List (frame K V))
    (n : cursor K V) (h : lookupFrom key t up = some n) : (key, n.v) ∈ toList t := by
  induction t generalizing up with
  | nil => simp [lookupFrom] at h
  | mk k v c l r ihl ihr =>
    simp only [lookupFrom] at h
    simp only [toList, List.mem_append, List.mem_cons]
    split_ifs at h with h1 h2
    · cases h; exact Or.inr (Or.inl (by rw [h1]))
    · exact Or.inl (ihl _ h)
    · exact Or.inr (Or.inr (ihr _ h))

theorem lookupFrom_none [LinearOrder K] (key : K) (t : node K V) (up : List (frame K V))
    (ho : sortedKeys (toList t)) (h : lookupFrom key t up = none) :
    ∀ v, (key, v) ∉ toList t := by
  induction t generalizing up with
  | nil => simp [toList]
  | mk k v c l r ihl ihr =>
    obtain ⟨h1, h2, h3, h4⟩ := (sortedKeys_mk k v c l r).1 ho
    simp only [lookupFrom] at h
    intro v0
    simp only [toList, List.mem_append, List.mem_cons, Prod.mk.injEq]
    split_ifs at h with e1 e2
    · rintro (g | ⟨g, -⟩ | g)
      · exact ihl _ h1 h v0 g
      · exact e1 g
      · exact absurd (h4 _ g) (not_lt_of_gt e2)
    · have e5 : k < key := lt_of_le_of_ne (not_lt.1 e2) (Ne.symm e1)
      rintro (g | ⟨g, -⟩ | g)
      · exact absurd (h3 _ g) (not_lt_of_gt e5)
      · exact e1 g
      · exact ihr _ h2 h v0 g

theorem Search_of_mem [LinearOrder K] [Inhabited V] (t : Tree K V) (ho : ordered t.root)
    (k : K) (v : V) (h : (k, v) ∈ toList t.root) : t.Search k = (v, true) := by
  unfold Tree.Search Tree.lookup
  cases hl : lookupFrom k t.root [] with
  | none => exact absurd h (lookupFrom_none k t.root [] ho hl v)
  | some n =>
    simp only [Prod.mk.injEq, and_true]
    exact sortedKeys_unique _ ho k _ _ (lookupFrom_mem k t.root [] n hl) h

theorem Search_of_not_mem [LinearOrder K] [Inhabited V] (t : Tree K V) (k : K)
    (h : ∀ v, (k, v) ∉ toList t.root) : t.Search k = (default, false) := by
  unfold Tree.Search Tree.lookup
  cases hl : lookupFrom k t.root [] with
  | none => rfl
  | some n => exact absurd (lookupFrom_mem k t.root [] n hl) (h _)

theorem Search_congr [LinearOrder K] [Inhabited V] (t t1 : Tree K V) (ho : ordered t.root)
    (ho1 : ordered t1.root) (k : K)
    (h : ∀ v, (k, v) ∈ toList t1.root ↔ (k, v) ∈ toList t.root) : t1.Search k = t.Search k := by
  by_cases hm : ∃ v, (k, v) ∈ toList t.root
  · obtain ⟨v, hv⟩ := hm
    rw [Search_of_mem t ho k v hv, Search_of_mem t1 ho1 k v ((h v).2 hv)]
  · simp only [not_exists] at hm
    rw [Search_of_not_mem t k hm, Search_of_not_mem t1 k (fun v hv => hm v ((h v).1 hv))]

theorem Add_spec [LinearOrder K] (t : Tree K V) (key : K) (value : V) (hc : core t.root)
    (ho : ordered t.root) :
    ∃ t1, t.Add key value = some t1 ∧ core t1.root ∧
      toList t1.root = insertList key value (toList t.root) ∧
      (((∃ v0, (key, v0) ∈ toList t.root) ∧ t1.count = t.count) ∨
        ((∀ v0, (key, v0) ∉ toList t.root) ∧ t1.count = t.count + 1)) := by
  obtain ⟨t1, h1, h2⟩ := Add_core t key value hc
  refine ⟨t1, h1, h2, ?_⟩
  obtain ⟨a1, a2⟩ := addLoop_toList key value t.root [] ho
  unfold Tree.Add at h1
  cases hd : addLoop key value t.root [] with
  | updated n =>
    simp only [hd, Option.some.injEq] at h1
    subst h1
    obtain ⟨b1, b2⟩ := a1 n hd
    exact ⟨by simpa [pathL, pathR] using b1, Or.inl ⟨b2, rfl⟩⟩
  | linked nn =>
    simp only [hd] at h1
    obtain ⟨b1, b2⟩ := a2 nn hd
    obtain ⟨h3, h4⟩ := addLoop_linked key value t.root [] nn hd
    simp only [plug] at h4
    rw [← h4, core_plug_iff] at hc
    obtain ⟨-, -, c3, c4, -, c5, -⟩ := hc
    have hr : insertReady nn 0 := by
      rw [h3]
      exact ⟨rfl, rfl, rfl, trivial, trivial, trivial, trivial, rfl, rfl, c3, c4, c5⟩
    obtain ⟨m, hm, -, hlist⟩ := insertCase1_spec (nn.up.length + 1) nn 0 (by omega) hr
    simp only [hm, Option.map_some', Option.some.injEq] at h1
    subst h1
    exact ⟨by rw [hlist, b1]; simp [pathL, pathR], Or.inr ⟨b2, rfl⟩⟩

theorem sortedKeys_remove [LinearOrder K] (A B : List (K × V)) (key : K) (v0 : V)
    (h : sortedKeys (A ++ (key, v0) :: B)) :
    sortedKeys (A ++ B) ∧
      ∀ a b, (a, b) ∈ A ++ B ↔ a ≠ key ∧ (a, b) ∈ A ++ (key, v0) :: B := by
  rw [sortedKeys_append, sortedKeys_cons] at h
  obtain ⟨h1, ⟨h2, h3⟩, h4⟩ := h
  refine ⟨(sortedKeys_append _ _).2 ⟨h1, h3, fun x hx y hy =>
    h4 x hx y (List.mem_cons_of_mem _ hy)⟩, fun a b => ?_⟩
  simp only [List.mem_append, List.mem_cons, Prod.mk.injEq]
  constructor
  · rintro (g | g)
    · exact ⟨ne_of_lt (h4 _ g _ (List.mem_cons_self _ _)), Or.inl g⟩
    · exact ⟨ne_of_gt (h2 _ g), Or.inr (Or.inr g)⟩
  · rintro ⟨g1, g | ⟨g, -⟩ | g⟩
    · exact Or.inl g
    · exact absurd g g1
    · exact Or.inr g

theorem Remove_spec [LinearOrder K] (t : Tree K V) (key : K) (hc : core t.root)
    (ho : ordered t.root) :
    ((∀ v, (key, v) ∉ toList t.root) ∧ t.Remove key = some (t, false)) ∨
    (∃ t1 v0, (key, v0) ∈ toList t.root ∧ t.Remove key = some (t1, true) ∧ core t1.root ∧
      ordered t1.root ∧ t1.count = t.count - 1 ∧
      (toList t1.root).length + 1 = (toList t.root).length ∧
      ∀ a b, (a, b) ∈ toList t1.root ↔ a ≠ key ∧ (a, b) ∈ toList t.root) := by
  cases hl : t.lookup key with
  | none =>
    exact Or.inl ⟨lookupFrom_none key t.root [] ho hl, by simp [Tree.Remove, hl]⟩
  | some n0 =>
    obtain ⟨t1, h1, h2, h3, h4, h5⟩ := Remove_found t key n0 hl hc
    have ho1 : sortedKeys (toList t.root) := ho
    rw [h4, List.append_assoc, List.append_assoc, List.cons_append,
      ← List.append_assoc] at ho1
    obtain ⟨g1, g2⟩ := sortedKeys_remove _ _ key n0.v ho1
    have h5a : toList t1.root = (pathL n0.up ++ toList n0.l) ++ (toList n0.r ++ pathR n0.up) := by
      rw [h5]; simp
    have h4a : toList t.root =
        (pathL n0.up ++ toList n0.l) ++ (key, n0.v) :: (toList n0.r ++ pathR n0.up) := by
      rw [h4]; simp
    refine Or.inr ⟨t1, n0.v, ?_, h1, h2, ?_, h3, ?_, ?_⟩
    · rw [h4a]; simp
    · show sortedKeys (toList t1.root)
      rw [h5a]; exact g1
    · rw [h4a, h5a]; simp; omega
    · rw [h4a, h5a]; exact g2

theorem skeleton_plug (t t1 : node K V) (up : List (frame K V))
    (h : skeleton t = skeleton t1) : skeleton (plug t up) = skeleton (plug t1 up) := by
  induction up generalizing t t1 with
  | nil => exact h
  | cons f rest ih =>
    simp only [plug]
    apply ih
    cases hs : f.s <;> simp [frame.fill, hs, skeleton, h]

theorem valid_core (t : node K V) (h : redBlack t) : core t := (redBlack_iff_core t).1 h

theorem sorted_nodup [LinearOrder K] (t : node K V) (h : ordered t) : (keys t).Nodup :=
  List.Sorted.nodup h

/-- C2: `Remove` preserves the red-black colour invariants, whichever node is unlinked. -/
theorem Remove_preserves_redBlack [LinearOrder K] (t : Tree K V) (key : K)
    (h : redBlack t.root) : ∃ t1 b, t.Remove key = some (t1, b) ∧ redBlack t1.root := by
  cases hl : t.lookup key with
  | none => exact ⟨t, false, by simp [Tree.Remove, hl], h⟩
  | some n0 =>
    obtain ⟨t1, h1, h2, -⟩ := Remove_found t key n0 hl (valid_core _ h)
    exact ⟨t1, true, h1, (redBlack_iff_core _).2 h2⟩

theorem Remove_preserves_redBlack_witness :
    redBlack sample.root ∧ ∃ t1 b, sample.Remove 2 = some (t1, b) ∧ redBlack t1.root :=
  ⟨by decide, Remove_preserves_redBlack sample 2 (by decide)⟩

/-- C3: on a red-black tree with strictly increasing in-order keys, `Add` and `Remove`
leave the in-order keys strictly increasing, so without repetition. -/
theorem Add_Remove_preserve_ordered [LinearOrder K] (t : Tree K V) (key : K) (value : V)
    (key2 : K) (hrb : redBlack t.root) (ho : ordered t.root) :
    (∃ t1, t.Add key value = some t1 ∧ ordered t1.root ∧ (keys t1.root).Nodup) ∧
      (∃ t1 b, t.Remove key2 = some (t1, b) ∧ ordered t1.root ∧ (keys t1.root).Nodup) := by
  constructor
  · obtain ⟨t1, h1, -, h3, -⟩ := Add_spec t key value (valid_core _ hrb) ho
    have h4 : ordered t1.root := by
      show sortedKeys (toList t1.root)
      rw [h3]; exact (insertList_sorted key value _ ho).1
    exact ⟨t1, h1, h4, sorted_nodup _ h4⟩
  · rcases Remove_spec t key2 (valid_core _ hrb) ho with ⟨-, h1⟩ | ⟨t1, v0, -, h1, -, h2, -⟩
    · exact ⟨t, false, h1, ho, sorted_nodup _ ho⟩
    · exact ⟨t1, true, h1, h2, sorted_nodup _ h2⟩

theorem Add_Remove_preserve_ordered_witness :
    (redBlack sample.root ∧ ordered sample.root) ∧
      (∃ t1, sample.Add 3 30 = some t1 ∧ ordered t1.root ∧ (keys t1.root).Nodup) ∧
      (∃ t1 b, sample.Remove 2 = some (t1, b) ∧ ordered t1.root ∧ (keys t1.root).Nodup) :=
  ⟨⟨by decide, by decide⟩, Add_Remove_preserve_ordered sample 3 30 2 (by decide) (by decide)⟩

/-- C4: on a valid tree `Add k v` makes `Search k` return `(v, true)`, whether or not
`k` was present, and leaves the result of `Search` unchanged for every other key. -/
theorem Add_Search [LinearOrder K] [Inhabited V] (t : Tree K V) (k k1 : K) (v : V)
    (hrb : redBlack t.root) (ho : ordered t.root) :
    ∃ t1, t.Add k v = some t1 ∧ t1.Search k = (v, true) ∧
      (k1 ≠ k → t1.Search k1 = t.Search k1) := by
  obtain ⟨t1, h1, -, h3, -⟩ := Add_spec t k v (valid_core _ hrb) ho
  have h4 : ordered t1.root := by
    show sortedKeys (toList t1.root)
    rw [h3]; exact (insertList_sorted k v _ ho).1
  refine ⟨t1, h1, Search_of_mem t1 h4 k v ?_, fun hne => Search_congr t t1 ho h4 k1 fun w => ?_⟩
  · rw [h3, mem_insertList k v _ ho]; exact Or.inl ⟨rfl, rfl⟩
  · rw [h3, mem_insertList k v _ ho]
    constructor
    · rintro (⟨g, -⟩ | ⟨-, g⟩)
      · exact absurd g hne
      · exact g
    · exact fun g => Or.inr ⟨hne, g⟩

theorem Add_Search_witness :
    (redBlack sample.root ∧ ordered sample.root) ∧
      ∃ t1, sample.Add 4 44 = some t1 ∧ t1.Search 4 = (44, true) ∧
        ((2 : Nat) ≠ 4 → t1.Search 2 = sample.Search 2) :=
  ⟨⟨by decide, by decide⟩, Add_Search sample 4 2 44 (by decide) (by decide)⟩

/-- C5: on a tree with strictly increasing in-order keys that holds `k` (in particular
on a valid tree), `Add k v2` ends inside the descent loop (no fixup runs) and changes
nothing but the value of `k`: `Len`, the shape, the keys and the colours are the same,
and `Search` answers the same for every other key. -/
theorem Add_present [LinearOrder K] [Inhabited V] (t : Tree K V) (k : K) (v2 : V)
    (ho : ordered t.root) (hk : k ∈ keys t.root) :
    ∃ t1, t.Add k v2 = some t1 ∧ t1.Len = t.Len ∧ skeleton t1.root = skeleton t.root ∧
      (∀ k1, k1 ≠ k → t1.Search k1 = t.Search k1) ∧
      ∃ n, addLoop k v2 t.root [] = descent.updated n ∧ t1 = ⟨n.root, t.count⟩ := by
  obtain ⟨⟨k0, v0⟩, hv, rfl⟩ := List.mem_map.1 hk
  obtain ⟨a1, a2⟩ := addLoop_toList k0 v2 t.root [] ho
  cases hd : addLoop k0 v2 t.root [] with
  | linked nn => exact absurd hv ((a2 nn hd).2 v0)
  | updated n =>
    obtain ⟨b1, -⟩ := a1 n hd
    simp only [pathL, pathR, List.nil_append, List.append_nil] at b1
    obtain ⟨w, c1, -, -⟩ := addLoop_updated k0 v2 t.root [] n hd
    simp only [plug] at c1
    have h4 : ordered n.root := by
      show sortedKeys (toList n.root)
      rw [b1]; exact (insertList_sorted k0 v2 _ ho).1
    refine ⟨⟨n.root, t.count⟩, by simp [Tree.Add, hd], rfl, ?_, fun k1 hne => ?_, n, rfl, rfl⟩
    · rw [← c1]
      exact skeleton_plug _ _ _ rfl
    · refine Search_congr t ⟨n.root, t.count⟩ ho h4 k1 fun w1 => ?_
      show (k1, w1) ∈ toList n.root ↔ _
      rw [b1, mem_insertList k0 v2 _ ho]
      constructor
      · rintro (⟨g, -⟩ | ⟨-, g⟩)
        · exact absurd g hne
        · exact g
      · exact fun g => Or.inr ⟨hne, g⟩

theorem Add_present_witness :
    (redBlack sample.root ∧ ordered sample.root ∧ 4 ∈ keys sample.root) ∧
      ∃ t1, sample.Add 4 44 = some t1 ∧ t1.Len = sample.Len ∧
        skeleton t1.root = skeleton sample.root ∧
        (∀ k1, k1 ≠ 4 → t1.Search k1 = sample.Search k1) ∧
        ∃ n, addLoop 4 44 sample.root [] = descent.updated n ∧ t1 = ⟨n.root, sample.count⟩ :=
  ⟨⟨by decide, by decide, by decide⟩, Add_present sample 4 44 (by decide) (by decide)⟩

/-- C6: when `Search` does not find `k` (on a valid tree or any other), `Remove k`
returns false and the tree is exactly the one before: the same root, so the same
structure, colours and entries, and the same `count`. -/
theorem Remove_absent [LinearOrder K] [Inhabited V] (t : Tree K V) (k : K)
    (h : (t.Search k).2 = false) : t.Remove k = some (t, false) := by
  have hl : t.lookup k = none := by
    cases hl : t.lookup k with
    | none => rfl
    | some n => simp [Tree.Search, hl] at h
  simp [Tree.Remove, hl]

theorem Remove_absent_witness :
    (sample.Search 3).2 = false ∧ sample.Remove 3 = some (sample, false) :=
  ⟨by decide, Remove_absent sample 3 (by decide)⟩

/-- C7: on a valid tree in which `Search` finds `k`, `Remove k` returns true and
afterwards `Search k` returns the zero value and false. -/
theorem Remove_present [LinearOrder K] [Inhabited V] (t : Tree K V) (k : K)
    (hrb : redBlack t.root) (ho : ordered t.root) (h : (t.Search k).2 = true) :
    ∃ t1, t.Remove k = some (t1, true) ∧ t1.Search k = (default, false) := by
  rcases Remove_spec t k (valid_core _ hrb) ho with ⟨h1, -⟩ | ⟨t1, v0, -, h1, -, -, -, -, h2⟩
  · rw [Search_of_not_mem t k h1] at h
    cases h
  · exact ⟨t1, h1, Search_of_not_mem t1 k fun v hv => ((h2 k v).1 hv).1 rfl⟩

theorem Remove_present_witness :
    (redBlack sample.root ∧ ordered sample.root ∧ (sample.Search 2).2 = true) ∧
      ∃ t1, sample.Remove 2 = some (t1, true) ∧ t1.Search 2 = (default, false) :=
  ⟨⟨by decide, by decide, by decide⟩, Remove_present sample 2 (by decide) (by decide) (by decide)⟩

/-- C8: on a valid tree `Remove k` leaves the result of `Search` unchanged for every
key other than `k`, also when the entry of the in-order predecessor is moved into the
node that held `k`. -/
theorem Remove_other [LinearOrder K] [Inhabited V] (t : Tree K V) (k k1 : K)
    (hrb : redBlack t.root) (ho : ordered t.root) (hne : k1 ≠ k) :
    ∃ t1 b, t.Remove k = some (t1, b) ∧ t1.Search k1 = t.Search k1 := by
  rcases Remove_spec t k (valid_core _ hrb) ho with ⟨-, h1⟩ | ⟨t1, v0, -, h1, -, h3, -, -, h2⟩
  · exact ⟨t, false, h1, rfl⟩
  · refine ⟨t1, true, h1, Search_congr t t1 ho h3 k1 fun w => ?_⟩
    rw [h2]
    exact ⟨fun g => g.2, fun g => ⟨hne, g⟩⟩

theorem Remove_other_witness :
    (redBlack sample.root ∧ ordered sample.root ∧ (1 : Nat) ≠ 2) ∧
      ∃ t1 b, sample.Remove 2 = some (t1, b) ∧ t1.Search 1 = sample.Search 1 :=
  ⟨⟨by decide, by decide, by decide⟩, Remove_other sample 2 1 (by decide) (by decide) (by decide)⟩

theorem Add_preserves_redBlack_witness :
    redBlack sample.root ∧ ∃ t1, sample.Add 3 30 = some t1 ∧ redBlack t1.root :=
  ⟨by decide, (Add_preserves_redBlack (K := Nat) (V := Nat)).2 sample 3 30 (by decide)⟩

theorem mem_keys_iff (t : node K V) (k : K) : k ∈ keys t ↔ ∃ v, (k, v) ∈ toList t := by
  simp [keys]

theorem valid_Add [LinearOrder K] (t : Tree K V) (k : K) (v : V) (h : valid t) :
    ∃ t1, t.Add k v = some t1 ∧ valid t1 ∧
      t1.count = (if k ∈ keys t.root then t.count else t.count + 1) ∧
      ∀ a b, (a, b) ∈ toList t1.root ↔ (a = k ∧ b = v) ∨ (a ≠ k ∧ (a, b) ∈ toList t.root) := by
  obtain ⟨hc, ho, hn⟩ := h
  obtain ⟨t1, h1, h2, h3, h4⟩ := Add_spec t k v hc ho
  have h5 : ordered t1.root := by
    show sortedKeys (toList t1.root)
    rw [h3]; exact (insertList_sorted k v _ ho).1
  obtain ⟨l1, l2⟩ := length_insertList k v (toList t.root) ho
  refine ⟨t1, h1, ⟨h2, h5, ?_⟩, ?_, fun a b => by rw [h3, mem_insertList k v _ ho]⟩
  · rw [size_eq_length, h3]
    rcases h4 with ⟨g1, g2⟩ | ⟨g1, g2⟩
    · rw [g2, hn, l1 g1, size_eq_length]
    · rw [g2, hn, l2 g1, size_eq_length]; simp
  · rcases h4 with ⟨g1, g2⟩ | ⟨g1, g2⟩
    · rw [if_pos ((mem_keys_iff _ _).2 g1), g2]
    · rw [if_neg (fun hk => by obtain ⟨v0, hv⟩ := (mem_keys_iff _ _).1 hk; exact g1 v0 hv), g2]

theorem valid_Remove [LinearOrder K] (t : Tree K V) (k : K) (h : valid t) :
    ∃ t1 b, t.Remove k = some (t1, b) ∧ valid t1 ∧
      t1.count = (if k ∈ keys t.root then t.count - 1 else t.count) ∧
      ∀ a b, (a, b) ∈ toList t1.root ↔ a ≠ k ∧ (a, b) ∈ toList t.root := by
  obtain ⟨hc, ho, hn⟩ := h
  rcases Remove_spec t k hc ho with ⟨h1, h2⟩ | ⟨t1, v0, h0, h1, h2, h3, h4, h5, h6⟩
  · refine ⟨t, false, h2, ⟨hc, ho, hn⟩, ?_, fun a b => ⟨fun g => ⟨?_, g⟩, fun g => g.2⟩⟩
    · rw [if_neg (fun hk => by obtain ⟨v0, hv⟩ := (mem_keys_iff _ _).1 hk; exact h1 v0 hv)]
    · rintro rfl; exact h1 b g
  · refine ⟨t1, true, h1, ⟨h2, h3, ?_⟩, ?_, h6⟩
    · rw [h4, hn, size_eq_length, size_eq_length, ← h5]; simp
    · rw [if_pos ((mem_keys_iff _ _).2 ⟨v0, h0⟩), h4]

theorem valid_New [LinearOrder K] : valid (New : Tree K V) :=
  ⟨⟨rfl, trivial, trivial⟩, List.sorted_nil, rfl⟩

theorem run_spec [LinearOrder K] (ops : List (op K V)) (t : Tree K V) (m : K → Option V)
    (h : valid t) (hm : ∀ a b, (a, b) ∈ toList t.root ↔ m a = some b) :
    ∃ t1, run ops t = some t1 ∧ valid t1 ∧
      ∀ a b, (a, b) ∈ toList t1.root ↔ liveFrom ops m a = some b := by
  induction ops generalizing t m with
  | nil => exact ⟨t, rfl, h, hm⟩
  | cons o os ih =>
    cases o with
    | add k v =>
      obtain ⟨t1, h1, h2, -, h4⟩ := valid_Add t k v h
      obtain ⟨t2, g1, g2, g3⟩ := ih t1 ((op.add k v).onMap m) h2 (fun a b => by
        rw [h4, hm]
        simp only [op.onMap]
        split_ifs with e
        · simp [e, eq_comm]
        · simp [e])
      exact ⟨t2, by simp [run, Tree.apply, h1, g1], g2, g3⟩
    | remove k =>
      obtain ⟨t1, b, h1, h2, -, h4⟩ := valid_Remove t k h
      obtain ⟨t2, g1, g2, g3⟩ := ih t1 ((op.remove k).onMap m) h2 (fun a b => by
        rw [h4, hm]
        simp only [op.onMap]
        split_ifs with e
        · simp [e]
        · simp [e])
      exact ⟨t2, by simp [run, Tree.apply, h1, g1], g2, g3⟩

/-- C9: `New` has `Len` 0, and after every sequence of `Add` and `Remove` calls from
`New` the tree `t` exists, `Len` is the number of nodes under the root, which is the
number of (pairwise distinct) keys stored; a further `Add` raises `Len` by one exactly
when its key is new and a further `Remove` lowers it by one exactly when its key is
present, and neither changes it otherwise. -/
theorem Len_counts_entries [LinearOrder K] (ops : List (op K V)) :
    (New : Tree K V).Len = 0 ∧
      ∃ t, run ops New = some t ∧ t.Len = size t.root ∧ (keys t.root).Nodup ∧
        (keys t.root).length = size t.root ∧
        (∀ k v, ∃ t1, t.Add k v = some t1 ∧
          t1.Len = if k ∈ keys t.root then t.Len else t.Len + 1) ∧
        (∀ k, ∃ t1 b, t.Remove k = some (t1, b) ∧
          t1.Len = if k ∈ keys t.root then t.Len - 1 else t.Len) := by
  refine ⟨rfl, ?_⟩
  obtain ⟨t, h1, h2, -⟩ := run_spec ops (New : Tree K V) (fun _ => none) valid_New
    (fun a b => by simp [New, toList])
  refine ⟨t, h1, h2.2.2, sorted_nodup _ h2.2.1, by simp [keys, size_eq_length],
    fun k v => ?_, fun k => ?_⟩
  · obtain ⟨t1, g1, -, g3, -⟩ := valid_Add t k v h2
    exact ⟨t1, g1, g3⟩
  · obtain ⟨t1, b, g1, -, g3, -⟩ := valid_Remove t k h2
    exact ⟨t1, b, g1, g3⟩

theorem stackRest_concat (s : List (node K V)) (x : node K V) :
    stackRest (s ++ [x]) = nodeRest x ++ stackRest s := by
  induction s with
  | nil => simp [stackRest]
  | cons y s ih => simp [stackRest, ih]

theorem nextLoop_spec (r c n : node K V) (s : List (node K V))
    (hs : ∀ x ∈ s, x ≠ node.nil) :
    (toList c ++ stackRest s = [] → nextLoop r c n s = some (⟨r, node.nil, n, []⟩, false)) ∧
    (∀ k v rest, toList c ++ stackRest s = (k, v) :: rest →
      ∃ it1, nextLoop r c n s = some (it1, true) ∧ it1.r = r ∧ it1.Key = some k ∧
        it1.Value = some v ∧ (∀ x ∈ it1.s, x ≠ node.nil) ∧
        toList it1.c ++ stackRest it1.s = rest) := by
  induction c generalizing s with
  | mk k v col l r1 ihl _ =>
    have hs1 : ∀ x ∈ s ++ [node.mk k v col l r1], x ≠ node.nil := by
      intro x hx
      rcases List.mem_append.1 hx with hx | hx
      · exact hs x hx
      · simp only [List.mem_singleton] at hx; subst hx; simp
    have e : toList l ++ stackRest (s ++ [node.mk k v col l r1]) =
        toList (node.mk k v col l r1) ++ stackRest s := by
      simp [stackRest_concat, nodeRest, toList]
    simp only [nextLoop]
    rw [← e]
    exact ihl _ hs1
  | nil =>
    rcases List.eq_nil_or_concat s with rfl | ⟨s1, top, rfl⟩
    · refine ⟨fun _ => rfl, fun k v rest h => ?_⟩
      simp [toList, stackRest] at h
    · simp only [List.concat_eq_append] at hs ⊢
      have htop : top ≠ node.nil := hs top (by simp)
      cases top with
      | nil => exact absurd rfl htop
      | mk k v col l r1 =>
        simp only [toList, List.nil_append, stackRest_concat, nodeRest]
        refine ⟨fun h => by simp at h, fun k1 v1 rest h => ?_⟩
        simp only [List.cons_append, List.cons.injEq, Prod.mk.injEq] at h
        obtain ⟨⟨rfl, rfl⟩, rfl⟩ := h
        refine ⟨⟨r, r1, node.mk k v col l r1, s1⟩, by simp [nextLoop], rfl, rfl, rfl, ?_, rfl⟩
        exact fun x hx => hs x (List.mem_append_left _ hx)

theorem collect_spec (fuel : Nat) (it : Iterator K V) (hs : ∀ x ∈ it.s, x ≠ node.nil)
    (hr : it.r = node.nil → it.c = node.nil ∧ it.s = [])
    (hf : (toList it.c ++ stackRest it.s).length < fuel) :
    collect fuel it = some (toList it.c ++ stackRest it.s) := by
  induction fuel generalizing it with
  | zero => simp at hf
  | succ fuel ih =>
    obtain ⟨r, c, n, s⟩ := it
    simp only at hs hr hf ⊢
    cases r with
    | nil =>
      obtain ⟨rfl, rfl⟩ := hr rfl
      simp [collect, Iterator.Next, toList, stackRest]
    | mk rk rv rc rl rr =>
      obtain ⟨h1, h2⟩ := nextLoop_spec (node.mk rk rv rc rl rr) c n s hs
      cases hrem : toList c ++ stackRest s with
      | nil => simp [collect, Iterator.Next, h1 hrem]
      | cons x rest =>
        obtain ⟨k, v⟩ := x
        obtain ⟨it1, g1, g2, g3, g4, g5, g6⟩ := h2 k v rest hrem
        have g7 := ih it1 g5 (fun h => by rw [g2] at h; cases h)
          (by rw [g6]; rw [hrem] at hf; simp at hf; omega)
        rw [g6] at g7
        simp [collect, Iterator.Next, g1, g3, g4, g7]

theorem collect_Iter (t : Tree K V) (fuel : Nat) (hf : size t.root < fuel) :
    collect fuel t.Iter = some (toList t.root) := by
  have h := collect_spec fuel t.Iter (by simp [Tree.Iter])
    (by intro h; exact ⟨h, rfl⟩) (by simpa [Tree.Iter, stackRest, size_eq_length] using hf)
  simpa [Tree.Iter, stackRest] using h

/-- C10: after every sequence of `Add` and `Remove` calls from `New`, the loop that
calls `Next` until it returns false ends, and the pairs read through `Key` and `Value`
have strictly ascending keys (so each key once) and are exactly the entries added and
not removed afterwards, each key with the value last added. -/
theorem Iter_lists_live_entries [LinearOrder K] (ops : List (op K V)) :
    ∃ t out, run ops New = some t ∧
      (∀ fuel, size t.root < fuel → collect fuel t.Iter = some out) ∧
      sortedKeys out ∧ (out.map Prod.fst).Nodup ∧
      ∀ k v, (k, v) ∈ out ↔ live ops k = some v := by
  obtain ⟨t, h1, h2, h3⟩ := run_spec ops (New : Tree K V) (fun _ => none) valid_New
    (fun a b => by simp [New, toList])
  exact ⟨t, toList t.root, h1, fun fuel hf => collect_Iter t fuel hf, h2.2.1,
    sorted_nodup _ h2.2.1, h3⟩

/-- The scenario of `Test_RBRemove`: keys 0 to 3 are added, then 2 is removed. -/
theorem scenario_remove :
    ∃ t, run [op.add 0 100, op.add 1 101, op.add 2 102, op.add 3 103, op.remove 2]
        (New : Tree Nat Nat) = some t ∧
      t.Search 2 = (0, false) ∧ t.Search 1 = (101, true) ∧ t.Search 3 = (103, true) ∧
      t.Len = 3 :=
  ⟨⟨node.mk 1 101 color.black (node.mk 0 100 color.red node.nil node.nil)
      (node.mk 3 103 color.red node.nil node.nil), 3⟩, by decide, by decide, by decide,
    by decide, by decide⟩

/-- The scenario of `Test_RBIter`: keys 2, 0, 3, 1 are added and come out in order. -/
theorem scenario_iter :
    ∃ t, run [op.add 2 102, op.add 0 100, op.add 3 103, op.add 1 101]
        (New : Tree Nat Nat) = some t ∧
      collect 5 t.Iter = some [(0, 100), (1, 101), (2, 102), (3, 103)] :=
  ⟨⟨node.mk 2 102 color.black
      (node.mk 0 100 color.black node.nil (node.mk 1 101 color.red node.nil node.nil))
      (node.mk 3 103 color.black node.nil node.nil), 4⟩, by decide, by decide⟩

theorem toList_eq_nil (t : node K V) (h : toList t = []) : t = node.nil := by
  cases t with
  | nil => rfl
  | mk k v c l r => simp [toList] at h

theorem valid_Remove_present [LinearOrder K] (t : Tree K V) (k : K) (h : valid t)
    (hk : k ∈ keys t.root) :
    ∃ t1, t.Remove k = some (t1, true) ∧ valid t1 ∧
      ∀ a b, (a, b) ∈ toList t1.root ↔ a ≠ k ∧ (a, b) ∈ toList t.root := by
  obtain ⟨hc, ho, hn⟩ := h
  rcases Remove_spec t k hc ho with ⟨h1, -⟩ | ⟨t1, v0, h0, h1, h2, h3, h4, h5, h6⟩
  · obtain ⟨v0, hv⟩ := (mem_keys_iff _ _).1 hk
    exact absurd hv (h1 v0)
  · refine ⟨t1, h1, ⟨h2, h3, ?_⟩, h6⟩
    rw [h4, hn, size_eq_length, size_eq_length, ← h5]; simp

theorem run_addEach [LinearOrder K] (kvs : List (K × V)) (t : Tree K V) (h : valid t) :
    ∃ t1, run (addEach kvs) t = some t1 ∧ valid t1 ∧
      ∀ a, a ∈ keys t1.root ↔ a ∈ kvs.map Prod.fst ∨ a ∈ keys t.root := by
  induction kvs generalizing t with
  | nil => exact ⟨t, rfl, h, fun a => by simp⟩
  | cons x kvs ih =>
    obtain ⟨k, v⟩ := x
    obtain ⟨t1, h1, h2, -, h4⟩ := valid_Add t k v h
    obtain ⟨t2, g1, g2, g3⟩ := ih t1 h2
    refine ⟨t2, by simp [addEach, run, Tree.apply, h1] at g1 ⊢; exact g1, g2, fun a => ?_⟩
    rw [g3, mem_keys_iff, mem_keys_iff]
    simp only [h4, List.map_cons, List.mem_cons]
    constructor
    · rintro (g | ⟨b, ⟨g, -⟩ | ⟨-, g⟩⟩)
      · exact Or.inl (Or.inr g)
      · exact Or.inl (Or.inl g)
      · exact Or.inr ⟨b, g⟩
    · rintro ((g | g) | ⟨b, g⟩)
      · exact Or.inr ⟨v, Or.inl ⟨g, rfl⟩⟩
      · exact Or.inl g
      · by_cases e : a = k
        · exact Or.inr ⟨v, Or.inl ⟨e, rfl⟩⟩
        · exact Or.inr ⟨b, Or.inr ⟨e, g⟩⟩

theorem removeEach_spec [LinearOrder K] (ks : List K) (t : Tree K V) (h : valid t)
    (hd : ks.Nodup) (hk : ∀ k ∈ ks, k ∈ keys t.root) :
    ∃ t1, removeEach ks t = some (t1, List.replicate ks.length true) ∧ valid t1 ∧
      ∀ a, a ∈ keys t1.root ↔ a ∉ ks ∧ a ∈ keys t.root := by
  induction ks generalizing t with
  | nil => exact ⟨t, rfl, h, fun a => by simp⟩
  | cons k ks ih =>
    obtain ⟨hd1, hd2⟩ := List.nodup_cons.1 hd
    obtain ⟨t1, h1, h2, h3⟩ := valid_Remove_present t k h (hk k (List.mem_cons_self _ _))
    have hm : ∀ a, a ∈ keys t1.root ↔ a ≠ k ∧ a ∈ keys t.root := by
      intro a
      rw [mem_keys_iff, mem_keys_iff]
      constructor
      · rintro ⟨b, g⟩; exact ⟨((h3 a b).1 g).1, b, ((h3 a b).1 g).2⟩
      · rintro ⟨g1, b, g2⟩; exact ⟨b, (h3 a b).2 ⟨g1, g2⟩⟩
    obtain ⟨t2, g1, g2, g3⟩ := ih t1 h2 hd2 (fun a ha =>
      (hm a).2 ⟨fun e => hd1 (e ▸ ha), hk a (List.mem_cons_of_mem _ ha)⟩)
    refine ⟨t2, by simp [removeEach, h1, g1, List.replicate_succ], g2, fun a => ?_⟩
    rw [g3, hm]
    simp only [List.mem_cons, not_or]
    tauto

/-- C11: when pairwise distinct keys are added to the tree of `New` and then removed
in any order, every `Remove` returns true and the tree ends with `Len` 0 and a nil
root, and the first `Next` of an iterator on it returns false. -/
theorem remove_all_empties [LinearOrder K] (kvs : List (K × V)) (perm : List K)
    (hd : (kvs.map Prod.fst).Nodup) (hp : perm.Perm (kvs.map Prod.fst)) :
    ∃ t t1, run (addEach kvs) New = some t ∧
      removeEach perm t = some (t1, List.replicate perm.length true) ∧
      t1.Len = 0 ∧ t1.root = node.nil ∧ t1.Iter.Next = some (t1.Iter, false) := by
  obtain ⟨t, h1, h2, h3⟩ := run_addEach kvs (New : Tree K V) valid_New
  obtain ⟨t1, g1, g2, g3⟩ := removeEach_spec perm t h2 (hp.nodup_iff.2 hd)
    (fun k hk => (h3 k).2 (Or.inl (hp.mem_iff.1 hk)))
  have hnil : t1.root = node.nil := by
    apply toList_eq_nil
    apply List.eq_nil_iff_forall_not_mem.2
    rintro ⟨a, b⟩ hab
    have ha : a ∈ keys t1.root := (mem_keys_iff _ _).2 ⟨b, hab⟩
    obtain ⟨q1, q2⟩ := (g3 a).1 ha
    rcases (h3 a).1 q2 with q | q
    · exact q1 (hp.mem_iff.2 q)
    · simp [New, keys, toList] at q
  refine ⟨t, t1, h1, g1, ?_, hnil, ?_⟩
  · show t1.count = 0
    rw [g2.2.2, hnil]; rfl
  · simp [Iterator.Next, Tree.Iter, hnil]

theorem remove_all_empties_witness :
    (([(2, 20), (1, 10), (3, 30)] : List (Nat × Nat)).map Prod.fst).Nodup ∧
      ∃ t t1, run (addEach [(2, 20), (1, 10), (3, 30)]) (New : Tree Nat Nat) = some t ∧
        removeEach [3, 2, 1] t = some (t1, List.replicate 3 true) ∧
        t1.Len = 0 ∧ t1.root = node.nil ∧ t1.Iter.Next = some (t1.Iter, false) :=
  ⟨by decide, remove_all_empties [(2, 20), (1, 10), (3, 30)] [3, 2, 1] (by decide) (by decide)⟩

theorem stackNodes_concat (s : List (node K V)) (x : node K V) :
    stackNodes (s ++ [x]) = nodeRestN x ++ stackNodes s := by
  induction s with
  | nil => simp [stackNodes]
  | cons y s ih => simp [stackNodes, ih]

theorem mem_nodes_ne_nil (t x : node K V) (h : x ∈ nodes t) : x ≠ node.nil := by
  induction t with
  | nil => simp [nodes] at h
  | mk k v c l r ihl ihr =>
    simp only [nodes, List.mem_append, List.mem_cons] at h
    rcases h with h | rfl | h
    · exact ihl h
    · simp
    · exact ihr h

theorem length_nodes (t : node K V) : (nodes t).length = size t := by
  induction t with
  | nil => rfl
  | mk k v c l r ihl ihr => simp [nodes, size, ihl, ihr]; omega

theorem nextLoop_nodes (r c n : node K V) (s : List (node K V))
    (hs : ∀ x ∈ s, x ≠ node.nil) :
    (nodes c ++ stackNodes s = [] → nextLoop r c n s = some (⟨r, c, n, s⟩, false)) ∧
    (∀ x rest, nodes c ++ stackNodes s = x :: rest →
      ∃ it1, nextLoop r c n s = some (it1, true) ∧ it1.r = r ∧ it1.n = x ∧
        (∀ y ∈ it1.s, y ≠ node.nil) ∧ it1.pending = rest) := by
  induction c generalizing s with
  | mk k v col l r1 ihl _ =>
    have hs1 : ∀ x ∈ s ++ [node.mk k v col l r1], x ≠ node.nil := by
      intro x hx
      rcases List.mem_append.1 hx with hx | hx
      · exact hs x hx
      · simp only [List.mem_singleton] at hx; subst hx; simp
    have e : nodes l ++ stackNodes (s ++ [node.mk k v col l r1]) =
        nodes (node.mk k v col l r1) ++ stackNodes s := by
      simp [stackNodes_concat, nodeRestN, nodes]
    obtain ⟨i1, i2⟩ := ihl _ hs1
    refine ⟨fun h => by simp [nodes] at h, fun x rest h => ?_⟩
    simp only [nextLoop]
    exact i2 x rest (e.trans h)
  | nil =>
    rcases List.eq_nil_or_concat s with rfl | ⟨s1, top, rfl⟩
    · refine ⟨fun _ => rfl, fun x rest h => ?_⟩
      simp [nodes, stackNodes] at h
    · simp only [List.concat_eq_append] at hs ⊢
      have htop : top ≠ node.nil := hs top (by simp)
      cases top with
      | nil => exact absurd rfl htop
      | mk k v col l r1 =>
        simp only [nodes, List.nil_append, stackNodes_concat, nodeRestN]
        refine ⟨fun h => by simp at h, fun x rest h => ?_⟩
        simp only [List.cons_append, List.cons.injEq] at h
        obtain ⟨rfl, rfl⟩ := h
        refine ⟨⟨r, r1, node.mk k v col l r1, s1⟩, by simp [nextLoop], rfl, rfl, ?_, rfl⟩
        exact fun x hx => hs x (List.mem_append_left _ hx)

theorem Next_nodes (it : Iterator K V) (h : iterInv it) :
    (it.pending = [] → it.Next = some (it, false)) ∧
    (∀ x rest, it.pending = x :: rest →
      ∃ it1, it.Next = some (it1, true) ∧ it1.r = it.r ∧ it1.n = x ∧ iterInv it1 ∧
        it1.pending = rest) := by
  obtain ⟨r, c, n, s⟩ := it
  obtain ⟨hs, hr⟩ := h
  simp only at hs hr
  cases r with
  | nil =>
    obtain ⟨rfl, rfl⟩ := hr rfl
    exact ⟨fun _ => rfl, fun x rest h => by simp [Iterator.pending, nodes, stackNodes] at h⟩
  | mk rk rv rc rl rr =>
    obtain ⟨h1, h2⟩ := nextLoop_nodes (node.mk rk rv rc rl rr) c n s hs
    refine ⟨fun h => h1 h, fun x rest h => ?_⟩
    obtain ⟨it1, g1, g2, g3, g4, g5⟩ := h2 x rest h
    exact ⟨it1, g1, g2, g3, ⟨g4, fun e => by rw [g2] at e; cases e⟩, g5⟩

theorem iterInv_Iter (t : Tree K V) : iterInv t.Iter :=
  ⟨by simp [Tree.Iter], fun h => ⟨h, rfl⟩⟩

theorem pending_Iter (t : Tree K V) : t.Iter.pending = nodes t.root := by
  simp [Tree.Iter, Iterator.pending, stackNodes]

theorem advance_spec (i : Nat) (it : Iterator K V) (h : iterInv it) :
    (∀ x, it.pending[i]? = some x →
      ∃ it0 it1, advance i it = some it0 ∧ it0.Next = some (it1, true) ∧ it1.n = x) ∧
    (it.pending.length ≤ i →
      ∃ it0, advance i it = some it0 ∧ it0.Next = some (it0, false)) := by
  induction i generalizing it with
  | zero =>
    obtain ⟨h1, h2⟩ := Next_nodes it h
    constructor
    · intro x hx
      cases hp : it.pending with
      | nil => simp [hp] at hx
      | cons y rest =>
        simp only [hp, List.getElem?_cons_zero, Option.some.injEq] at hx
        subst hx
        obtain ⟨it1, g1, -, g3, -, -⟩ := h2 y rest hp
        exact ⟨it, it1, rfl, g1, g3⟩
    · intro hl
      exact ⟨it, rfl, h1 (List.length_eq_zero.1 (Nat.le_zero.1 hl))⟩
  | succ i ih =>
    obtain ⟨h1, h2⟩ := Next_nodes it h
    cases hp : it.pending with
    | nil =>
      have hn := h1 hp
      obtain ⟨-, i2⟩ := ih it h
      obtain ⟨it0, g1, g2⟩ := i2 (by simp [hp])
      refine ⟨fun x hx => by simp at hx, fun _ => ⟨it0, ?_, g2⟩⟩
      simp [advance, hn, g1]
    | cons y rest =>
      obtain ⟨it1, g1, -, -, g4, g5⟩ := h2 y rest hp
      obtain ⟨i1, i2⟩ := ih it1 g4
      rw [g5] at i1 i2
      constructor
      · intro x hx
        simp only [List.getElem?_cons_succ] at hx
        obtain ⟨it0, it2, q1, q2, q3⟩ := i1 x hx
        exact ⟨it0, it2, by simp [advance, g1, q1], q2, q3⟩
      · intro hl
        obtain ⟨it0, q1, q2⟩ := i2 (by simp at hl; omega)
        exact ⟨it0, by simp [advance, g1, q1], q2⟩

/-- C12: on the iterator of any binary tree with `n` nodes, call number `i + 1` of
`Next` (for `i < n`) returns true and makes the current element node number `i` of the
left-node-right order; every call after the first `n` returns false and leaves the
iterator as it was. -/
theorem Next_is_inorder (t : Tree K V) :
    (nodes t.root).length = size t.root ∧
    (∀ i x, (nodes t.root)[i]? = some x →
      ∃ it0 it1, advance i t.Iter = some it0 ∧ it0.Next = some (it1, true) ∧ it1.n = x) ∧
    (∀ j, size t.root ≤ j →
      ∃ it0, advance j t.Iter = some it0 ∧ it0.Next = some (it0, false)) := by
  refine ⟨length_nodes _, fun i x hx => ?_, fun j hj => ?_⟩
  · exact (advance_spec i t.Iter (iterInv_Iter t)).1 x (by rw [pending_Iter]; exact hx)
  · exact (advance_spec j t.Iter (iterInv_Iter t)).2 (by rw [pending_Iter, length_nodes]; exact hj)

theorem Next_is_inorder_witness :
    (nodes sample.root)[1]? = some sample.root ∧
      ∃ it0 it1, advance 1 sample.Iter = some it0 ∧ it0.Next = some (it1, true) ∧
        it1.n = sample.root :=
  ⟨by decide, (Next_is_inorder sample).2.1 1 sample.root (by decide)⟩

theorem execFrom_spec (t : Tree K V) (ms : List move) (it : Iterator K V)
    (g : Option (node K V)) (hinv : iterInv it) (hr : it.r = t.root)
    (hp : ∀ x ∈ it.pending, x ∈ nodes t.root) (hg : it.n = g.getD node.nil)
    (hgm : ∀ x, g = some x → x ∈ nodes t.root) :
    ∃ it1 g1, execFrom ms it g = some (it1, g1) ∧ it1.r = t.root ∧
      it1.n = g1.getD node.nil ∧ ∀ x, g1 = some x → x ∈ nodes t.root := by
  induction ms generalizing it g with
  | nil => exact ⟨it, g, rfl, hr, hg, hgm⟩
  | cons m ms ih =>
    cases m with
    | reset =>
      simp only [execFrom]
      refine ih it.Reset none ⟨by simp [Iterator.Reset], fun h => ⟨h, rfl⟩⟩ hr ?_ rfl
        (fun x hx => by cases hx)
      intro x hx
      simpa [Iterator.Reset, Iterator.pending, stackNodes, hr] using hx
    | next =>
      obtain ⟨h1, h2⟩ := Next_nodes it hinv
      cases hpd : it.pending with
      | nil =>
        simp only [execFrom, h1 hpd]
        exact ih it g hinv hr hp hg hgm
      | cons x rest =>
        obtain ⟨it1, g1, g2, g3, g4, g5⟩ := h2 x rest hpd
        simp only [execFrom, g1]
        have hx : x ∈ nodes t.root := hp x (by rw [hpd]; exact List.mem_cons_self _ _)
        refine ih it1 (some it1.n) g4 (g2.trans hr) ?_ rfl ?_
        · intro y hy
          rw [g5] at hy
          exact hp y (by rw [hpd]; exact List.mem_cons_of_mem _ hy)
        · intro y hy
          simp only [Option.some.injEq] at hy
          rw [← hy, g3]; exact hx

/-- C13: after any sequence of `Next` and `Reset` calls on the iterator of a tree,
`Key` and `Value` panic when no `Next` has returned true since the iterator was created
or last reset, and otherwise return the key and the value of the node that the last
such `Next` made current, which is a node of the tree. -/
theorem Key_Value_current (t : Tree K V) (ms : List move) :
    ∃ it g, execFrom ms t.Iter none = some (it, g) ∧
      (g = none → it.Key = none ∧ it.Value = none) ∧
      ∀ x, g = some x → ∃ k v c l r, x = node.mk k v c l r ∧ x ∈ nodes t.root ∧
        it.Key = some k ∧ it.Value = some v := by
  obtain ⟨it, g, h1, -, h3, h4⟩ := execFrom_spec t ms t.Iter none (iterInv_Iter t) rfl
    (fun x hx => by rw [pending_Iter] at hx; exact hx) rfl (fun x hx => by cases hx)
  refine ⟨it, g, h1, fun hg => ?_, fun x hx => ?_⟩
  · subst hg
    simp only [Option.getD_none] at h3
    simp [Iterator.Key, Iterator.Value, h3]
  · subst hx
    simp only [Option.getD_some] at h3
    have hm := h4 x rfl
    cases x with
    | nil => exact absurd rfl (mem_nodes_ne_nil _ _ hm)
    | mk k v c l r =>
      exact ⟨k, v, c, l, r, rfl, hm, by simp [Iterator.Key, h3], by simp [Iterator.Value, h3]⟩

theorem Key_Value_current_witness :
    ∃ it g, execFrom [move.next, move.next, move.reset, move.next] sample.Iter none =
        some (it, g) ∧
      (g = none → it.Key = none ∧ it.Value = none) ∧
      ∀ x, g = some x → ∃ k v c l r, x = node.mk k v c l r ∧ x ∈ nodes sample.root ∧
        it.Key = some k ∧ it.Value = some v :=
  Key_Value_current sample [move.next, move.next, move.reset, move.next]

theorem nextLoop_r (r c n : node K V) (s : List (node K V)) (it1 : Iterator K V) (b : Bool)
    (h : nextLoop r c n s = some (it1, b)) : it1.r = r := by
  induction c generalizing s with
  | mk k v col l r1 ihl _ => exact ihl _ h
  | nil =>
    simp only [nextLoop] at h
    split at h
    · cases h; rfl
    · cases h
    · cases h; rfl

theorem Next_r (it it1 : Iterator K V) (b : Bool) (h : it.Next = some (it1, b)) :
    it1.r = it.r := by
  unfold Iterator.Next at h
  split at h
  · cases h; rfl
  · exact nextLoop_r _ _ _ _ _ _ h

theorem execFrom_r (ms : List move) (it it1 : Iterator K V) (g g1 : Option (node K V))
    (h : execFrom ms it g = some (it1, g1)) : it1.r = it.r := by
  induction ms generalizing it g with
  | nil => simp only [execFrom, Option.some.injEq, Prod.mk.injEq] at h; rw [← h.1]
  | cons m ms ih =>
    cases m with
    | reset =>
      simp only [execFrom] at h
      exact ih it.Reset none h
    | next =>
      simp only [execFrom] at h
      split at h
      · cases h
      · rename_i it2 hn
        exact (ih it2 _ h).trans (Next_r _ _ _ hn)
      · rename_i it2 hn
        exact (ih it2 _ h).trans (Next_r _ _ _ hn)

/-- C14: whatever `Next` and `Reset` calls an iterator of a tree has gone through,
`Reset` puts it in the state of a fresh `Iter` on the same root, so every later
sequence of calls gives the same results as on a fresh iterator. -/
theorem Reset_restarts (t : Tree K V) (ms : List move) (it : Iterator K V)
    (g : Option (node K V)) (h : execFrom ms t.Iter none = some (it, g)) :
    it.Reset = t.Iter ∧
      (∀ ms2, execFrom ms2 it.Reset none = execFrom ms2 t.Iter none) ∧
      (∀ fuel, collect fuel it.Reset = collect fuel t.Iter) ∧
      it.Reset.Key = none ∧ it.Reset.Value = none := by
  have hr : it.r = t.root := execFrom_r ms _ _ _ _ h
  have e : it.Reset = t.Iter := by simp [Iterator.Reset, Tree.Iter, hr]
  refine ⟨e, fun ms2 => by rw [e], fun fuel => by rw [e], ?_, ?_⟩ <;> rw [e] <;> rfl

theorem Reset_restarts_witness :
    ∃ it g, execFrom [move.next, move.next] sample.Iter none = some (it, g) ∧
      it.Reset = sample.Iter ∧
      (∀ ms2, execFrom ms2 it.Reset none = execFrom ms2 sample.Iter none) ∧
      (∀ fuel, collect fuel it.Reset = collect fuel sample.Iter) ∧
      it.Reset.Key = none ∧ it.Reset.Value = none :=
  ⟨_, _, rfl, Reset_restarts sample [move.next, move.next] _ _ rfl⟩

theorem received_sendAll (L : List (K × V)) : received (sendAll L) = some L := by
  induction L with
  | nil => rfl
  | cons x L ih =>
    obtain ⟨k, v⟩ := x
    have e : received (sendAll ((k, v) :: L)) =
        (received (sendAll L)).map (fun items => (k, v) :: items) := rfl
    rw [e, ih]; rfl

theorem length_stackRest_ge (s : List (node K V)) (hs : ∀ x ∈ s, x ≠ node.nil) :
    s.length ≤ (stackRest s).length := by
  induction s with
  | nil => simp
  | cons x s ih =>
    have hx : x ≠ node.nil := hs x (List.mem_cons_self _ _)
    cases x with
    | nil => exact absurd rfl hx
    | mk k v c l r =>
      have := ih (fun y hy => hs y (List.mem_cons_of_mem _ hy))
      simp [stackRest, nodeRest]; omega

theorem produce_spec (fuel : Nat) (curr : node K V) (s : List (node K V))
    (hs : ∀ x ∈ s, x ≠ node.nil)
    (hf : 2 * (toList curr ++ stackRest s).length < fuel + s.length) :
    produce fuel curr s = some (sendAll (toList curr ++ stackRest s)) := by
  induction fuel generalizing curr s with
  | zero =>
    have := length_stackRest_ge s hs
    simp at hf; omega
  | succ fuel ih =>
    cases curr with
    | mk k v c l r =>
      have hs1 : ∀ x ∈ s ++ [node.mk k v c l r], x ≠ node.nil := by
        intro x hx
        rcases List.mem_append.1 hx with hx | hx
        · exact hs x hx
        · simp only [List.mem_singleton] at hx; subst hx; simp
      have e : toList l ++ stackRest (s ++ [node.mk k v c l r]) =
          toList (node.mk k v c l r) ++ stackRest s := by
        simp [stackRest_concat, nodeRest, toList]
      simp only [produce]
      rw [← e]
      apply ih _ _ hs1
      rw [e]; simp at hf ⊢; omega
    | nil =>
      rcases List.eq_nil_or_concat s with rfl | ⟨s1, top, rfl⟩
      · simp [produce, toList, stackRest, sendAll]
      · simp only [List.concat_eq_append] at hs hf ⊢
        have htop : top ≠ node.nil := hs top (by simp)
        cases top with
        | nil => exact absurd rfl htop
        | mk k v c l r =>
          have h1 := ih r s1 (fun x hx => hs x (List.mem_append_left _ hx))
            (by simp [toList, stackRest_concat, nodeRest] at hf ⊢; omega)
          simp [produce, h1, toList, stackRest_concat, nodeRest, sendAll]

theorem IterChan_spec (t : Tree K V) (h : t.root ≠ node.nil) :
    t.IterChan = stream.events (sendAll (toList t.root)) := by
  have h1 := produce_spec (2 * size t.root + 1) t.root [] (by simp)
    (by simp [stackRest, size_eq_length])
  simp only [stackRest, List.append_nil] at h1
  unfold Tree.IterChan
  cases hr : t.root with
  | nil => exact absurd hr h
  | mk k v c l r =>
    rw [hr] at h1
    simp only [h1]

/-- C15: on a non-empty tree with strictly increasing in-order keys (as in a valid
tree) the producer of `IterChan` sends one item per node, in the order in which the
`Next` loop of `Iter` yields them, which is strictly ascending in the keys, and then
closes the channel, once and after the last item. -/
theorem IterChan_sends_in_order [LinearOrder K] (t : Tree K V) (hne : t.root ≠ node.nil)
    (ho : ordered t.root) :
    ∃ items, t.IterChan =
        stream.events (items.map (fun p => chanEvent.send p.1 p.2) ++ [chanEvent.close]) ∧
      items.length = size t.root ∧
      (∀ fuel, size t.root < fuel → collect fuel t.Iter = some items) ∧
      sortedKeys items ∧ t.IterChan.range = some items := by
  refine ⟨toList t.root, IterChan_spec t hne, (size_eq_length _).symm,
    fun fuel hf => collect_Iter t fuel hf, ho, ?_⟩
  rw [IterChan_spec t hne]
  exact received_sendAll _

theorem IterChan_sends_in_order_witness :
    (sample.root ≠ node.nil ∧ ordered sample.root) ∧
      ∃ items, sample.IterChan =
          stream.events (items.map (fun p => chanEvent.send p.1 p.2) ++ [chanEvent.close]) ∧
        items.length = size sample.root ∧
        (∀ fuel, size sample.root < fuel → collect fuel sample.Iter = some items) ∧
        sortedKeys items ∧ sample.IterChan.range = some items :=
  ⟨⟨by decide, by decide⟩, IterChan_sends_in_order sample (by decide) (by decide)⟩

/-- C16, at the empty tree: `IterChan` returns the nil channel, on which nothing is
ever sent or closed, so a consumer ranging over it never finishes. -/
theorem IterChan_empty_is_nil :
    (New : Tree K V).IterChan = stream.nilChannel ∧ (New : Tree K V).IterChan.range = none :=
  ⟨rfl, rfl⟩

theorem insertCase3_congr (rec1 rec2 : cursor K V → Option (cursor K V)) (n : cursor K V)
    (h : ∀ m, m.up.length + 2 = n.up.length → rec1 m = rec2 m) :
    insertCase3 rec1 n = insertCase3 rec2 n := by
  obtain ⟨k, v, c, l, r, up⟩ := n
  rcases up with _ | ⟨f, _ | ⟨g, rest⟩⟩
  · rfl
  · rfl
  · simp only [insertCase3]
    split_ifs with hu
    · cases hset : setColor color.black g.o with
      | none => rfl
      | some u =>
        simp only [Option.some_bind, cursor.grandParent, cursor.p]
        cases f.s <;> cases g.s <;> simp only [Option.some_bind] <;> exact h _ (by simp)
    · rfl

theorem insertCase1_fuel (f1 f2 : Nat) (n : cursor K V) (h1 : n.up.length < 2 * f1)
    (h2 : n.up.length < 2 * f2) : insertCase1 f1 n = insertCase1 f2 n := by
  induction f1 generalizing f2 n with
  | zero => simp at h1
  | succ f1 ih =>
    cases f2 with
    | zero => simp at h2
    | succ f2 =>
      obtain ⟨k, v, c, l, r, up⟩ := n
      cases up with
      | nil => rfl
      | cons f rest =>
        simp only [insertCase1, insertCase2]
        split_ifs
        · rfl
        · apply insertCase3_congr
          intro m hm
          simp only [List.length_cons] at h1 h2 hm
          exact ih f2 m (by omega) (by omega)

theorem deleteCase3_congr (rec1 rec2 : cursor K V → Option (cursor K V)) (n : cursor K V)
    (h : ∀ m, m.up.length + 1 = n.up.length → rec1 m = rec2 m) :
    deleteCase3 rec1 n = deleteCase3 rec2 n := by
  obtain ⟨k, v, c, l, r, up⟩ := n
  rcases up with _ | ⟨f, rest⟩
  · rfl
  · simp only [deleteCase3]
    split_ifs with h1
    · cases hfo : f.o with
      | nil => rfl
      | mk sk sv sc sl sr =>
        simp only
        split_ifs with h2
        · simp only [cursor.p]
          cases f.s <;> simp only [Option.some_bind] <;> rw [h _ (by simp)]
        · rfl
    · rfl

theorem deleteCase3_red (rec : cursor K V → Option (cursor K V)) (n : cursor K V)
    (f : frame K V) (rest : List (frame K V)) (h : n.up = f :: rest) (hc : f.c = color.red) :
    deleteCase3 rec n = deleteCase4 n := by
  obtain ⟨k, v, c, l, r, up⟩ := n
  simp only at h
  subst h
  simp [deleteCase3, hc]

theorem deleteCase2_congr (rec1 rec2 : cursor K V → Option (cursor K V)) (n : cursor K V)
    (h : ∀ m, m.up.length + 1 = n.up.length → rec1 m = rec2 m) :
    deleteCase2 rec1 n = deleteCase2 rec2 n := by
  obtain ⟨k, v, c, l, r, up⟩ := n
  rcases up with _ | ⟨f, rest⟩
  · rfl
  · simp only [deleteCase2]
    split_ifs with h1
    · cases hset : setColor color.black f.o with
      | none => rfl
      | some s1 =>
        simp only [Option.some_bind, cursor.p]
        cases hs : f.s
        · simp only [Option.some_bind, rotateLeft]
          cases s1 with
          | nil => rfl
          | mk sk sv sc sl sr =>
            simp only [Option.some_bind, cursor.down, cursor.here]
            rw [deleteCase3_red rec1 _ _ _ rfl rfl, deleteCase3_red rec2 _ _ _ rfl rfl]
        · simp only [Option.some_bind, rotateRight]
          cases s1 with
          | nil => rfl
          | mk sk sv sc sl sr =>
            simp only [Option.some_bind, cursor.down, cursor.here]
            rw [deleteCase3_red rec1 _ _ _ rfl rfl, deleteCase3_red rec2 _ _ _ rfl rfl]
    · exact deleteCase3_congr rec1 rec2 _ h

theorem deleteCase1_fuel (f1 f2 : Nat) (n : cursor K V) (h1 : n.up.length < f1)
    (h2 : n.up.length < f2) : deleteCase1 f1 n = deleteCase1 f2 n := by
  induction f1 generalizing f2 n with
  | zero => simp at h1
  | succ f1 ih =>
    cases f2 with
    | zero => simp at h2
    | succ f2 =>
      obtain ⟨k, v, c, l, r, up⟩ := n
      cases up with
      | nil => rfl
      | cons f rest =>
        simp only [deleteCase1]
        apply deleteCase2_congr
        intro m hm
        simp only [List.length_cons] at h1 h2 hm
        exact ih f2 m (by omega) (by omega)

theorem height_fill (f : frame K V) (t : node K V) : height t + 1 ≤ height (f.fill t) := by
  cases hs : f.s <;> simp [frame.fill, hs, height]

theorem height_plug (t : node K V) (up : List (frame K V)) :
    up.length + height t ≤ height (plug t up) := by
  induction up generalizing t with
  | nil => simp [plug]
  | cons f rest ih =>
    have h1 := ih (f.fill t)
    have h2 := height_fill f t
    simp only [plug, List.length_cons]
    omega

theorem height_plug_congr (t t1 : node K V) (up : List (frame K V))
    (h : height t = height t1) : height (plug t up) = height (plug t1 up) := by
  induction up generalizing t t1 with
  | nil => exact h
  | cons f rest ih =>
    simp only [plug]
    apply ih
    cases hs : f.s <;> simp [frame.fill, hs, height, h]

theorem toPredecessor_height (n0 : cursor K V) :
    height (toPredecessor n0).root = height n0.root := by
  obtain ⟨k, v, c, l, r, up⟩ := n0
  cases l with
  | nil => rfl
  | mk lk lv lc ll lr =>
    cases r with
    | nil => rfl
    | mk rk rv rc rl rr =>
      obtain ⟨k1, v1, c1, l1, fs, h1, h2, -⟩ := maxNodeFrom_eq lk lv lc ll lr
      simp only [toPredecessor, h1, cursor.root, cursor.here, plug_append, h2, plug, frame.fill]
      exact height_plug_congr _ _ up (by simp [height])

theorem depth_lt_height (n : cursor K V) : n.up.length < height n.root := by
  have h := height_plug n.here n.up
  simp only [cursor.here, height] at h
  simp only [cursor.root, cursor.here]
  omega

theorem Remove_fixup_ready [LinearOrder K] (t : Tree K V) (key : K) (n0 : cursor K V)
    (hc : core t.root) (hl : t.lookup key = some n0)
    (hb : (toPredecessor n0).c = color.black) :
    n0.root = t.root ∧
      pathBal (toPredecessor n0).up (bheight (toPredecessor n0).l + 1) ∧
      pathRR (toPredecessor n0).up ∧ pathRootBlack (toPredecessor n0).up := by
  obtain ⟨hroot, -⟩ := lookupFrom_root key t.root [] n0 hl
  simp only [plug] at hroot
  obtain ⟨-, hb1, -⟩ := toPredecessor_spec n0
  have hcn : core (toPredecessor n0).root := hb1 (by rw [cursor.root, hroot]; exact hc)
  generalize toPredecessor n0 = n at hb hcn
  obtain ⟨k, v, c, l, r, up⟩ := n
  simp only at hb
  subst hb
  simp only [cursor.root, cursor.here, core_plug_iff, bheight, blackUnit_black] at hcn
  exact ⟨hroot, hcn.2.2.1, hcn.2.2.2.1, hcn.2.2.2.2.2.1⟩

/-- C17: on a red-black tree (parent links are consistent by construction of the
cursors) `Add` and `Remove` return, that is no nil node is dereferenced, and so do the
fixup calls they make: `insertCase1` on the newly linked node and `deleteCase1` on the
black node about to be unlinked. -/
theorem balancing_total [LinearOrder K] (t : Tree K V) (key : K) (value : V)
    (hrb : redBlack t.root) :
    (∃ t1, t.Add key value = some t1) ∧ (∃ t1 b, t.Remove key = some (t1, b)) ∧
    (∀ nn, addLoop key value t.root [] = descent.linked nn →
      ∃ m, insertCase1 (nn.up.length + 1) nn = some m) ∧
    (∀ n0, t.lookup key = some n0 → (toPredecessor n0).c = color.black →
      ∃ m, deleteCase1 ((toPredecessor n0).up.length + 1)
        { toPredecessor n0 with c := nodeColor (toPredecessor n0).child } = some m) := by
  have hc := valid_core _ hrb
  refine ⟨?_, ?_, fun nn hd => ?_, fun n0 hl hb => ?_⟩
  · obtain ⟨t1, h1, -⟩ := Add_core t key value hc
    exact ⟨t1, h1⟩
  · cases hl : t.lookup key with
    | none => exact ⟨t, false, by simp [Tree.Remove, hl]⟩
    | some n0 =>
      obtain ⟨t1, h1, -⟩ := Remove_found t key n0 hl hc
      exact ⟨t1, true, h1⟩
  · obtain ⟨h3, h4⟩ := addLoop_linked key value t.root [] nn hd
    simp only [plug] at h4
    rw [← h4, core_plug_iff] at hc
    obtain ⟨-, -, c3, c4, -, c5, -⟩ := hc
    have hr : insertReady nn 0 := by
      rw [h3]
      exact ⟨rfl, rfl, rfl, trivial, trivial, trivial, trivial, rfl, rfl, c3, c4, c5⟩
    obtain ⟨m, hm, -⟩ := insertCase1_spec (nn.up.length + 1) nn 0 (by omega) hr
    exact ⟨m, hm⟩
  · obtain ⟨-, h1, h2, h3⟩ := Remove_fixup_ready t key n0 hc hl hb
    obtain ⟨up1, h4, -⟩ := deleteCase1_spec ((toPredecessor n0).up.length + 1)
      { toPredecessor n0 with c := nodeColor (toPredecessor n0).child }
      (bheight (toPredecessor n0).l) (by simp) h1 h2 h3
    exact ⟨_, h4⟩

theorem balancing_total_witness :
    redBlack sample.root ∧
    (∃ t1, sample.Add 3 30 = some t1) ∧ (∃ t1 b, sample.Remove 2 = some (t1, b)) :=
  ⟨by decide, (balancing_total sample 3 30 (by decide)).1,
    (balancing_total sample 2 30 (by decide)).2.1⟩

/-- C18: a pass of the insertion fixup re-enters only at the grandparent and a pass of
the deletion fixup only at the parent, both strictly nearer to the root.  So on a
red-black tree the fixup started by `Add` at the new node returns for every bound on
the passes above half its depth, the fixup started by `Remove` for every bound above
the depth of the node to unlink, and these depths are below the height of the tree in
which the fixup runs. -/
theorem fixups_terminate [LinearOrder K] (t : Tree K V) (key : K) (value : V)
    (hrb : redBlack t.root) :
    (∀ (n : cursor K V) (rec1 rec2 : cursor K V → Option (cursor K V)),
      (∀ m, m.up.length + 2 = n.up.length → rec1 m = rec2 m) →
        insertCase3 rec1 n = insertCase3 rec2 n) ∧
    (∀ (n : cursor K V) (rec1 rec2 : cursor K V → Option (cursor K V)),
      (∀ m, m.up.length + 1 = n.up.length → rec1 m = rec2 m) →
        deleteCase2 rec1 n = deleteCase2 rec2 n) ∧
    (∀ nn, addLoop key value t.root [] = descent.linked nn →
      nn.up.length < height nn.root ∧
        ∃ m, ∀ fuel, nn.up.length / 2 < fuel → insertCase1 fuel nn = some m) ∧
    (∀ n0, t.lookup key = some n0 → (toPredecessor n0).c = color.black →
      (toPredecessor n0).up.length < height t.root ∧
        ∃ m, ∀ fuel, (toPredecessor n0).up.length < fuel →
          deleteCase1 fuel
            { toPredecessor n0 with c := nodeColor (toPredecessor n0).child } = some m) := by
  have hc := valid_core _ hrb
  refine ⟨fun n rec1 rec2 h => insertCase3_congr rec1 rec2 n h,
    fun n rec1 rec2 h => deleteCase2_congr rec1 rec2 n h, fun nn hd => ?_, fun n0 hl hb => ?_⟩
  · obtain ⟨h3, h4⟩ := addLoop_linked key value t.root [] nn hd
    simp only [plug] at h4
    rw [← h4, core_plug_iff] at hc
    obtain ⟨-, -, c3, c4, -, c5, -⟩ := hc
    have hr : insertReady nn 0 := by
      rw [h3]
      exact ⟨rfl, rfl, rfl, trivial, trivial, trivial, trivial, rfl, rfl, c3, c4, c5⟩
    obtain ⟨m, hm, -⟩ := insertCase1_spec (nn.up.length + 1) nn 0 (by omega) hr
    refine ⟨depth_lt_height nn, m, fun fuel hf => ?_⟩
    rw [← hm]
    exact insertCase1_fuel _ _ nn (by omega) (by omega)
  · obtain ⟨h0, h1, h2, h3⟩ := Remove_fixup_ready t key n0 hc hl hb
    obtain ⟨up1, h4, -⟩ := deleteCase1_spec ((toPredecessor n0).up.length + 1)
      { toPredecessor n0 with c := nodeColor (toPredecessor n0).child }
      (bheight (toPredecessor n0).l) (by simp) h1 h2 h3
    obtain ⟨m, hm⟩ : ∃ m, deleteCase1 ((toPredecessor n0).up.length + 1)
        { toPredecessor n0 with c := nodeColor (toPredecessor n0).child } = some m := ⟨_, h4⟩
    refine ⟨?_, m, fun fuel hf => ?_⟩
    · rw [← h0, ← toPredecessor_height n0]
      exact depth_lt_height _
    · rw [← hm]
      exact deleteCase1_fuel _ _ _ (by simpa using hf) (by simp)

theorem fixups_terminate_witness :
    redBlack sample.root ∧
    (∀ nn, addLoop 3 30 sample.root [] = descent.linked nn →
      nn.up.length < height nn.root ∧
        ∃ m, ∀ fuel, nn.up.length / 2 < fuel → insertCase1 fuel nn = some m) :=
  ⟨by decide, (fixups_terminate sample 3 30 (by decide)).2.2.1⟩

theorem deleteCase5K_eq (n : cursor K V) : deleteCase5K deleteCase6 n = deleteCase5 n := rfl

theorem deleteCase4K_eq (n : cursor K V) : deleteCase4K deleteCase6 n = deleteCase4 n := rfl

theorem deleteCase3K_eq (rec : cursor K V → Option (cursor K V)) (n : cursor K V) :
    deleteCase3K deleteCase6 rec n = deleteCase3 rec n := rfl

theorem deleteCase2K_eq (rec : cursor K V → Option (cursor K V)) (n : cursor K V) :
    deleteCase2K deleteCase6 rec n = deleteCase2 rec n := rfl

theorem deleteCase1K_eq (fuel : Nat) (n : cursor K V) :
    deleteCase1K deleteCase6 fuel n = deleteCase1 fuel n := by
  induction fuel generalizing n with
  | zero => rfl
  | succ fuel ih =>
    have e : deleteCase1K (deleteCase6 : cursor K V → Option (cursor K V)) fuel =
        deleteCase1 fuel := funext ih
    simp only [deleteCase1K, deleteCase1, e]
    rfl

theorem deleteCase4K_ready (k6 : cursor K V → Option (cursor K V))
    (hk : ∀ m, case6Ready m = true → k6 m = deleteCase6 m)
    (n : cursor K V) (f : frame K V) (rest : List (frame K V)) (h : Nat)
    (hup : n.up = f :: rest) (hs : nodeColor f.o = color.black)
    (hpb : pathBal (f :: rest) (h + 1))
    (hcase : ∀ sk sv sl sr, f.o = node.mk sk sv color.black sl sr →
        f.c = color.red ∨ nodeColor sl = color.red ∨ nodeColor sr = color.red) :
    deleteCase4K k6 n = deleteCase4 n := by
  obtain ⟨k, v, c, l, r, up⟩ := n
  simp only at hup
  subst hup
  obtain ⟨fk, fv, fc, fs, fo⟩ := f
  simp only [pathBal] at hpb hs
  obtain ⟨hso, -, -⟩ := hpb
  obtain ⟨sk, sv, sl, sr, rfl⟩ := mk_of_black hs hso
  specialize hcase sk sv sl sr rfl
  simp only at hcase
  cases fs
  · cases hsr : nodeColor sr
    · cases hsl : nodeColor sl
      · have hfc1 : fc = color.red := by simpa [hsr, hsl] using hcase
        subst hfc1
        simp [deleteCase4K, deleteCase4, hsl, hsr]
      · obtain ⟨slk, slv, sll, slr, rfl⟩ := mk_of_red hsl
        simp only [deleteCase4K, deleteCase5K, deleteCase4, deleteCase5, setColor, cursor.p,
          cursor.down, cursor.here, rotateLeft, rotateRight, nodeColor_mk, hsr, and_self,
          and_true, if_true, reduceCtorEq, and_false, if_false, Option.some_bind, ite_self]
        exact hk _ (by simp [case6Ready])
    · obtain ⟨srk, srv, srl, srr, rfl⟩ := mk_of_red hsr
      simp only [deleteCase4K, deleteCase5K, deleteCase4, deleteCase5, setColor, cursor.p,
        cursor.down, cursor.here, rotateLeft, rotateRight, nodeColor_mk, and_self,
        and_true, if_true, reduceCtorEq, and_false, if_false, Option.some_bind, ite_self]
      exact hk _ (by simp [case6Ready])
  · cases hsl : nodeColor sl
    · cases hsr : nodeColor sr
      · have hfc1 : fc = color.red := by simpa [hsr, hsl] using hcase
        subst hfc1
        simp [deleteCase4K, deleteCase4, hsl, hsr]
      · obtain ⟨srk, srv, srl, srr, rfl⟩ := mk_of_red hsr
        simp only [deleteCase4K, deleteCase5K, deleteCase4, deleteCase5, setColor, cursor.p,
          cursor.down, cursor.here, rotateLeft, rotateRight, nodeColor_mk, hsl, and_self,
          and_true, if_true, reduceCtorEq, and_false, false_and, if_false, Option.some_bind,
          ite_self]
        exact hk _ (by simp [case6Ready])
    · obtain ⟨slk, slv, sll, slr, rfl⟩ := mk_of_red hsl
      simp only [deleteCase4K, deleteCase5K, deleteCase4, deleteCase5, setColor, cursor.p,
        cursor.down, cursor.here, rotateLeft, rotateRight, nodeColor_mk, and_self,
        and_true, if_true, reduceCtorEq, and_false, false_and, if_false, Option.some_bind,
        ite_self]
      exact hk _ (by simp [case6Ready])

theorem deleteCase1K_ready (k6 : cursor K V → Option (cursor K V))
    (hk : ∀ m, case6Ready m = true → k6 m = deleteCase6 m)
    (fuel : Nat) (n : cursor K V) (h : Nat)
    (hf : n.up.length < fuel) (hpb : pathBal n.up (h + 1)) (hpr : pathRR n.up)
    (hpk : pathRootBlack n.up) :
    deleteCase1K k6 fuel n = deleteCase1 fuel n := by
  induction fuel generalizing n h with
  | zero => simp at hf
  | succ fuel ih =>
    obtain ⟨k, v, c, l, r, up⟩ := n
    simp only at hf hpb hpr hpk
    rcases up with _ | ⟨f, rest⟩
    · rfl
    · cases hs : nodeColor f.o
      · obtain ⟨fk, fv, fc, fs, fo⟩ := f
        have hpb0 := hpb
        simp only [pathBal, pathRR, topColor_cons] at hpb hpr hs
        obtain ⟨hso, hsb, hrestb⟩ := hpb
        obtain ⟨hsn, hfc, hrest⟩ := hpr
        rw [pathRootBlack_cons] at hpk
        obtain ⟨hpk1, hpk2⟩ := hpk
        obtain ⟨sk, sv, sl, sr, rfl⟩ := mk_of_black hs hso
        by_cases h3 : fc = color.black ∧ nodeColor sl = color.black ∧ nodeColor sr = color.black
        · obtain ⟨rfl, hsl, hsr⟩ := h3
          simp only [bheight, blackUnit_black] at hrestb
          cases fs
          · have e := ih ⟨fk, fv, color.black, node.mk k v c l r,
              node.mk sk sv color.red sl sr, rest⟩ (h + 1) (by simp at hf ⊢; omega) hrestb hrest
              hpk2
            simp [deleteCase1K, deleteCase2K, deleteCase3K, deleteCase1, deleteCase2,
              deleteCase3, hsl, hsr, cursor.p, cursor.here, e]
          · have e := ih ⟨fk, fv, color.black, node.mk sk sv color.red sl sr,
              node.mk k v c l r, rest⟩ (h + 1) (by simp at hf ⊢; omega) hrestb hrest hpk2
            simp [deleteCase1K, deleteCase2K, deleteCase3K, deleteCase1, deleteCase2,
              deleteCase3, hsl, hsr, cursor.p, cursor.here, e]
        · have key := deleteCase4K_ready k6 hk ⟨k, v, c, l, r, _⟩ _ rest h rfl hs hpb0
            (by
              intro sk1 sv1 sl1 sr1 he
              simp only [node.mk.injEq] at he
              obtain ⟨-, -, -, rfl, rfl⟩ := he
              simp only
              by_contra hcon
              simp only [not_or, color_ne_red] at hcon
              exact h3 hcon)
          simp only [deleteCase1K, deleteCase2K, deleteCase3K, deleteCase1, deleteCase2,
            deleteCase3, nodeColor_mk, reduceCtorEq, if_false]
          split_ifs with a b
          · exact absurd ⟨a.1, b⟩ h3
          · exact key
          · exact key
      · obtain ⟨fk, fv, fc, fs, fo⟩ := f
        simp only [pathBal, pathRR, topColor_cons] at hpb hpr hs
        obtain ⟨hso, hsb, hrestb⟩ := hpb
        obtain ⟨hsn, hfc, hrest⟩ := hpr
        obtain ⟨sk, sv, sl, sr, rfl⟩ := mk_of_red hs
        have hfc1 : fc = color.black := by
          cases fc
          · rfl
          · simpa using (hfc rfl).1
        subst hfc1
        simp only [bheight, blackUnit_black, blackUnit_red, add_zero, balanced, noRedRed,
          true_implies] at hso hsb hsn hrestb
        casesm* _ ∧ _
        cases fs
        · have key := deleteCase4K_ready k6 hk ⟨k, v, c, l, r,
            ⟨fk, fv, color.red, side.left, sl⟩ :: ⟨sk, sv, color.black, side.left, sr⟩ :: rest⟩
            _ _ h rfl (by assumption)
            (by simp only [pathBal, blackUnit_black, blackUnit_red, add_zero]
                (repeat' apply And.intro) <;> first | assumption | trivial | omega)
            (fun _ _ _ _ _ => Or.inl rfl)
          simp only at key
          simp [deleteCase1K, deleteCase2K, deleteCase3K, deleteCase1, deleteCase2,
            deleteCase3, setColor, cursor.p, cursor.here, rotateLeft, cursor.down, key]
        · have key := deleteCase4K_ready k6 hk ⟨k, v, c, l, r,
            ⟨fk, fv, color.red, side.right, sr⟩ :: ⟨sk, sv, color.black, side.right, sl⟩ :: rest⟩
            _ _ h rfl (by assumption)
            (by simp only [pathBal, blackUnit_black, blackUnit_red, add_zero]
                (repeat' apply And.intro) <;> first | assumption | trivial | omega)
            (fun _ _ _ _ _ => Or.inl rfl)
          simp only at key
          simp [deleteCase1K, deleteCase2K, deleteCase3K, deleteCase1, deleteCase2,
            deleteCase3, setColor, cursor.p, cursor.here, rotateRight, cursor.down, key]

theorem deleteCase5K_left (k6 : cursor K V → Option (cursor K V)) (n : cursor K V)
    (f : frame K V) (rest : List (frame K V)) (sk ak : K) (sv av : V) (al ar sr : node K V)
    (hup : n.up = f :: rest) (hs : f.s = side.left)
    (ho : f.o = node.mk sk sv color.black (node.mk ak av color.red al ar) sr)
    (hsr : nodeColor sr = color.black) :
    deleteCase5K k6 n = k6 { n with up :=
      { f with o := node.mk ak av color.black al (node.mk sk sv color.red ar sr) } :: rest } := by
  obtain ⟨k, v, c, l, r, up⟩ := n
  obtain ⟨fk, fv, fc, fs, fo⟩ := f
  simp only at hup hs ho
  subst hup hs ho
  simp [deleteCase5K, setColor, cursor.p, cursor.down, cursor.here, rotateRight, hsr]

theorem deleteCase5K_right (k6 : cursor K V → Option (cursor K V)) (n : cursor K V)
    (f : frame K V) (rest : List (frame K V)) (sk ak : K) (sv av : V) (al ar sl : node K V)
    (hup : n.up = f :: rest) (hs : f.s = side.right)
    (ho : f.o = node.mk sk sv color.black sl (node.mk ak av color.red al ar))
    (hsl : nodeColor sl = color.black) :
    deleteCase5K k6 n = k6 { n with up :=
      { f with o := node.mk ak av color.black (node.mk sk sv color.red sl al) ar } :: rest } := by
  obtain ⟨k, v, c, l, r, up⟩ := n
  obtain ⟨fk, fv, fc, fs, fo⟩ := f
  simp only at hup hs ho
  subst hup hs ho
  simp [deleteCase5K, setColor, cursor.p, cursor.down, cursor.here, rotateLeft, hsl]

theorem deleteCase5K_else (k6 : cursor K V → Option (cursor K V)) (n : cursor K V)
    (f : frame K V) (rest : List (frame K V)) (sk : K) (sv : V) (sc : color) (sl sr : node K V)
    (hup : n.up = f :: rest) (ho : f.o = node.mk sk sv sc sl sr)
    (hn : ¬(sc = color.black ∧ nodeColor (nearChild f.s sl sr) = color.red ∧
      nodeColor (farChild f.s sl sr) = color.black)) :
    deleteCase5K k6 n = k6 n := by
  obtain ⟨k, v, c, l, r, up⟩ := n
  obtain ⟨fk, fv, fc, fs, fo⟩ := f
  simp only at hup ho hn
  subst hup ho
  cases fs <;> simp only [nearChild, farChild] at hn <;>
    simp only [deleteCase5K, nodeColor_mk, reduceCtorEq, false_and, true_and, if_false]
  · split_ifs with a b
    · exact absurd ⟨a, b⟩ hn
    · rfl
    · rfl
  · split_ifs with a b
    · exact absurd ⟨a, b⟩ hn
    · rfl
    · rfl

/-- C19: when `Remove` on a red-black tree runs the deletion fixup, every entry into
Case 6 is at a node whose sibling is black with a red child on the far side: the fixup
with that check in front of `deleteCase6` returns the same cursor as the fixup itself.
Case 5 hands over to Case 6 after rotating the sibling away exactly when the sibling
is black with a red near child and a black far child, and then the new sibling is
black and its far child red; otherwise it hands over the node as it is. -/
theorem case6_entry [LinearOrder K] (t : Tree K V) (key : K) (n0 : cursor K V)
    (hrb : redBlack t.root) (hl : t.lookup key = some n0)
    (hb : (toPredecessor n0).c = color.black) :
    (∃ m,
      deleteCase1K deleteCase6Checked ((toPredecessor n0).up.length + 1)
        { toPredecessor n0 with c := nodeColor (toPredecessor n0).child } = some m ∧
      deleteCase1 ((toPredecessor n0).up.length + 1)
        { toPredecessor n0 with c := nodeColor (toPredecessor n0).child } = some m) ∧
    (∀ fuel (n : cursor K V), deleteCase1K deleteCase6 fuel n = deleteCase1 fuel n) ∧
    (∀ (k6 : cursor K V → Option (cursor K V)) (n : cursor K V) f rest sk sv ak av al ar sr,
      n.up = f :: rest → f.s = side.left →
      f.o = node.mk sk sv color.black (node.mk ak av color.red al ar) sr →
      nodeColor sr = color.black →
      deleteCase5K k6 n = k6 { n with up :=
        { f with o := node.mk ak av color.black al (node.mk sk sv color.red ar sr) } :: rest } ∧
      case6Ready { n with up :=
        { f with o := node.mk ak av color.black al (node.mk sk sv color.red ar sr) } :: rest }
        = true) ∧
    (∀ (k6 : cursor K V → Option (cursor K V)) (n : cursor K V) f rest sk sv ak av al ar sl,
      n.up = f :: rest → f.s = side.right →
      f.o = node.mk sk sv color.black sl (node.mk ak av color.red al ar) →
      nodeColor sl = color.black →
      deleteCase5K k6 n = k6 { n with up :=
        { f with o := node.mk ak av color.black (node.mk sk sv color.red sl al) ar } :: rest } ∧
      case6Ready { n with up :=
        { f with o := node.mk ak av color.black (node.mk sk sv color.red sl al) ar } :: rest }
        = true) ∧
    (∀ (k6 : cursor K V → Option (cursor K V)) (n : cursor K V) f rest sk sv sc sl sr,
      n.up = f :: rest → f.o = node.mk sk sv sc sl sr →
      ¬(sc = color.black ∧ nodeColor (nearChild f.s sl sr) = color.red ∧
        nodeColor (farChild f.s sl sr) = color.black) →
      deleteCase5K k6 n = k6 n) := by
  refine ⟨?_, deleteCase1K_eq, ?_, ?_, ?_⟩
  · obtain ⟨-, h1, h2, h3⟩ := Remove_fixup_ready t key n0 (valid_core _ hrb) hl hb
    obtain ⟨up1, h4, -⟩ := deleteCase1_spec ((toPredecessor n0).up.length + 1)
      { toPredecessor n0 with c := nodeColor (toPredecessor n0).child }
      (bheight (toPredecessor n0).l) (by simp) h1 h2 h3
    refine ⟨_, ?_, h4⟩
    rw [← h4]
    exact deleteCase1K_ready deleteCase6Checked
      (fun m hm => by simp [deleteCase6Checked, hm]) _ _ (bheight (toPredecessor n0).l)
      (by simp) h1 h2 h3
  · intro k6 n f rest sk sv ak av al ar sr hup hs ho hsr
    refine ⟨deleteCase5K_left k6 n f rest sk ak sv av al ar sr hup hs ho hsr, ?_⟩
    simp [case6Ready, hs]
  · intro k6 n f rest sk sv ak av al ar sl hup hs ho hsl
    refine ⟨deleteCase5K_right k6 n f rest sk ak sv av al ar sl hup hs ho hsl, ?_⟩
    simp [case6Ready, hs]
  · intro k6 n f rest sk sv sc sl sr hup ho hn
    exact deleteCase5K_else k6 n f rest sk sv sc sl sr hup ho hn

theorem case6_entry_witness :
    (redBlack sample6.root ∧
      sample6.lookup 1 = some ⟨1, 10, color.black, node.nil, node.nil,
        [⟨2, 20, color.black, side.left,
          node.mk 4 40 color.black node.nil (node.mk 5 50 color.red node.nil node.nil)⟩]⟩) ∧
    ∃ m,
      deleteCase1K deleteCase6Checked 2
        ⟨1, 10, color.black, node.nil, node.nil,
          [⟨2, 20, color.black, side.left,
            node.mk 4 40 color.black node.nil (node.mk 5 50 color.red node.nil node.nil)⟩]⟩
        = some m ∧
      deleteCase1 2
        ⟨1, 10, color.black, node.nil, node.nil,
          [⟨2, 20, color.black, side.left,
            node.mk 4 40 color.black node.nil (node.mk 5 50 color.red node.nil node.nil)⟩]⟩
        = some m :=
  ⟨⟨by decide, by decide⟩,
    (case6_entry sample6 1 ⟨1, 10, color.black, node.nil, node.nil,
        [⟨2, 20, color.black, side.left,
          node.mk 4 40 color.black node.nil (node.mk 5 50 color.red node.nil node.nil)⟩]⟩
      (by decide) (by decide) (by decide)).1⟩

theorem descentSteps_le_height [LinearOrder K] (key : K) (t : node K V) :
    descentSteps key t ≤ height t := by
  induction t with
  | nil => simp [descentSteps]
  | mk k v c l r ihl ihr =>
    simp only [descentSteps, height]
    split_ifs <;> omega

theorem lookupFrom_steps [LinearOrder K] (key : K) (t : node K V) (up : List (frame K V))
    (n : cursor K V) (h : lookupFrom key t up = some n) :
    n.up.length + 1 = up.length + descentSteps key t := by
  induction t generalizing up with
  | nil => simp [lookupFrom] at h
  | mk k v c l r ihl ihr =>
    simp only [lookupFrom] at h
    simp only [descentSteps]
    split_ifs at h ⊢ with h1 h2
    · cases h; rfl
    · have := ihl _ h; simp only [List.length_cons] at this; omega
    · have := ihr _ h; simp only [List.length_cons] at this; omega

theorem addLoop_steps [LinearOrder K] (key : K) (value : V) (t : node K V)
    (up : List (frame K V)) :
    (∀ n, addLoop key value t up = descent.updated n →
      n.up.length + 1 = up.length + descentSteps key t) ∧
    (∀ nn, addLoop key value t up = descent.linked nn →
      nn.up.length = up.length + descentSteps key t) := by
  induction t generalizing up with
  | nil =>
    refine ⟨fun n h => by simp [addLoop] at h, fun nn h => ?_⟩
    simp only [addLoop, descent.linked.injEq] at h
    subst h; simp [descentSteps]
  | mk k v c l r ihl ihr =>
    simp only [addLoop, descentSteps]
    split_ifs with h1 h2
    · refine ⟨fun n h => ?_, fun nn h => by simp at h⟩
      simp only [descent.updated.injEq] at h
      subst h; rfl
    · obtain ⟨i1, i2⟩ := ihl (⟨k, v, c, side.left, r⟩ :: up)
      refine ⟨fun n h => ?_, fun nn h => ?_⟩
      · have := i1 n h; simp only [List.length_cons] at this; omega
      · have := i2 nn h; simp only [List.length_cons] at this; omega
    · obtain ⟨i1, i2⟩ := ihr (⟨k, v, c, side.right, l⟩ :: up)
      refine ⟨fun n h => ?_, fun nn h => ?_⟩
      · have := i1 n h; simp only [List.length_cons] at this; omega
      · have := i2 nn h; simp only [List.length_cons] at this; omega

theorem height_le_bheight (t : node K V) (h1 : noRedRed t) (h2 : balanced t) :
    height t ≤ 2 * bheight t + (if nodeColor t = color.red then 1 else 0) := by
  induction t with
  | nil => simp [height]
  | mk k v c l r ihl ihr =>
    obtain ⟨g1, g2, g3⟩ := h1
    obtain ⟨e1, e2, e3⟩ := h2
    have il := ihl g2 e2
    have ir := ihr g3 e3
    cases c
    · simp only [height, bheight, nodeColor_mk, blackUnit_black, reduceCtorEq, if_false]
      split_ifs at il ir <;> omega
    · obtain ⟨c1, c2⟩ := g1 rfl
      simp only [c1, c2, reduceCtorEq, if_false, add_zero] at il ir
      simp only [height, bheight, nodeColor_mk, blackUnit_red, if_true]
      omega

theorem pow_bheight_le_size (t : node K V) (h2 : balanced t) :
    2 ^ bheight t ≤ size t + 1 := by
  induction t with
  | nil => simp [bheight, size]
  | mk k v c l r ihl ihr =>
    obtain ⟨e1, e2, e3⟩ := h2
    have il := ihl e2
    have ir := ihr e3
    rw [e1] at il
    cases c
    · simp only [bheight, blackUnit_black, size, pow_succ]
      rw [e1]; omega
    · simp only [bheight, blackUnit_red, size, add_zero]
      rw [e1]; omega

theorem height_le_log (t : node K V) (h : core t) :
    height t ≤ 2 * Nat.log 2 (size t + 1) ∧ 2 ^ height t ≤ (size t + 1) ^ 2 := by
  obtain ⟨h0, h1, h2⟩ := h
  have a := height_le_bheight t h1 h2
  simp only [h0, reduceCtorEq, if_false, add_zero] at a
  have b := pow_bheight_le_size t h2
  have c : bheight t ≤ Nat.log 2 (size t + 1) := Nat.le_log_of_pow_le (by omega) b
  refine ⟨by omega, ?_⟩
  calc 2 ^ height t ≤ 2 ^ (2 * bheight t) := Nat.pow_le_pow_right (by omega) a
    _ = (2 ^ bheight t) ^ 2 := by rw [Nat.pow_mul']
    _ ≤ (size t + 1) ^ 2 := Nat.pow_le_pow_left b 2

/-- C20: after every sequence of `Add` and `Remove` calls from `New` the tree with its
`n = Len` entries is balanced: the longest root-to-nil path has at most `2 * log2 (n + 1)`
nodes (with the logarithm rounded down, and equivalently `2 ^ height ≤ (n + 1) ^ 2`), so
the descent loops of `lookup` and `Add` make at most that many iterations, which is
the depth at which they stop. -/
theorem stays_balanced [LinearOrder K] (ops : List (op K V)) :
    ∃ t, run ops New = some t ∧ t.Len = size t.root ∧
      height t.root ≤ 2 * Nat.log 2 (size t.root + 1) ∧
      2 ^ height t.root ≤ (size t.root + 1) ^ 2 ∧
      ∀ key value,
        descentSteps key t.root ≤ 2 * Nat.log 2 (size t.root + 1) ∧
        (∀ n, t.lookup key = some n → n.up.length + 1 = descentSteps key t.root) ∧
        (∀ n, addLoop key value t.root [] = descent.updated n →
          n.up.length + 1 = descentSteps key t.root) ∧
        (∀ nn, addLoop key value t.root [] = descent.linked nn →
          nn.up.length = descentSteps key t.root) := by
  obtain ⟨t, h1, h2, -⟩ := run_spec ops (New : Tree K V) (fun _ => none) valid_New
    (fun a b => by simp [New, toList])
  obtain ⟨b1, b2⟩ := height_le_log t.root h2.1
  refine ⟨t, h1, h2.2.2, b1, b2, fun key value => ⟨?_, fun n hn => ?_, fun n hn => ?_,
    fun nn hn => ?_⟩⟩
  · exact le_trans (descentSteps_le_height key t.root) b1
  · simpa using lookupFrom_steps key t.root [] n hn
  · simpa using (addLoop_steps key value t.root []).1 n hn
  · simpa using (addLoop_steps key value t.root []).2 nn hn

theorem stays_balanced_witness :
    ∃ t, run [op.add 1 10, op.add 2 20, op.add 3 30] (New : Tree Nat Nat) = some t ∧
      t.Len = size t.root ∧
      height t.root ≤ 2 * Nat.log 2 (size t.root + 1) ∧
      2 ^ height t.root ≤ (size t.root + 1) ^ 2 ∧
      ∀ key value,
        descentSteps key t.root ≤ 2 * Nat.log 2 (size t.root + 1) ∧
        (∀ n, t.lookup key = some n → n.up.length + 1 = descentSteps key t.root) ∧
        (∀ n, addLoop key value t.root [] = descent.updated n →
          n.up.length + 1 = descentSteps key t.root) ∧
        (∀ nn, addLoop key value t.root [] = descent.linked nn →
          nn.up.length = descentSteps key t.root) :=
  stays_balanced [op.add 1 10, op.add 2 20, op.add 3 30]

end rbtree
